import Mathlib

/-!
Shallow embedding of the constraint-simplification engine
(`circom_algebra` + `constraint_list`) and verification of its
specification claims.

Coefficient maps (`HashMap<C, BigInt>` in the source, with `C = usize`)
are embedded as association lists `List (Nat × Int)` with distinct keys;
`BigInt` is embedded as `Int`.  Field elements are canonically reduced
with `% p` (`Int.emod`, which lands in `[0, p)` for `p > 0`).
-/

namespace WitnessOptimizer

/-- The reserved constant-coefficient key (`C::default()` for `usize`). -/
def constantCoefficient : Nat := 0

/-- A raw coefficient map: the embedding of `HashMap<usize, BigInt>`. -/
abbrev RExpr := List (Nat × Int)

/-- Lookup in an association list (embedding of `HashMap::get`). -/
def getV {α β : Type} [DecidableEq α] (k : α) : List (α × β) → Option β
  | [] => none
  | (k', v) :: t => if k' = k then some v else getV k t

/-- Key membership (embedding of `HashMap::contains_key`). -/
def containsKey {α β : Type} [DecidableEq α] (k : α) (l : List (α × β)) : Bool :=
  (getV k l).isSome

/-- Insertion replacing an existing binding (embedding of `HashMap::insert`). -/
def setV {α β : Type} [DecidableEq α] (k : α) (v : β) : List (α × β) → List (α × β)
  | [] => [(k, v)]
  | (k', v') :: t => if k' = k then (k, v) :: t else (k', v') :: setV k v t

/-- Removal of a binding (embedding of `HashMap::remove`). -/
def eraseV {α β : Type} [DecidableEq α] (k : α) : List (α × β) → List (α × β)
  | [] => []
  | (k', v') :: t => if k' = k then t else (k', v') :: eraseV k t

/-- Distinct keys: the invariant every `HashMap` enjoys by construction. -/
def NodupKeys {α β : Type} (l : List (α × β)) : Prop :=
  (l.map Prod.fst).Nodup

instance {α β : Type} [DecidableEq α] (l : List (α × β)) : Decidable (NodupKeys l) :=
  inferInstanceAs (Decidable (l.map Prod.fst).Nodup)

/-!  Modular arithmetic.

Modelled from the spec: the module `modular_arithmetic` of
`circom_algebra` is not part of the sources at hand (only its callers
are).  Per §4.1 of the spec, field elements are arbitrary-precision
integers canonically reduced to `[0, p)`; `add`/`sub`/`mul` are the
ring operations followed by canonical reduction, and `div` multiplies
by the multiplicative inverse, failing when the divisor is zero or not
invertible modulo `p`.  -/

/-- Modelled from the spec: `modular_arithmetic::add`. -/
def modAdd (a b p : Int) : Int := (a + b) % p

/-- Modelled from the spec: `modular_arithmetic::sub`. -/
def modSub (a b p : Int) : Int := (a - b) % p

/-- Modelled from the spec: `modular_arithmetic::mul`. -/
def modMul (a b p : Int) : Int := (a * b) % p

/-- Modelled from the spec: the multiplicative inverse modulo `p`,
searched among the canonical representatives; `none` when the operand
is not invertible. -/
def modInv (b p : Int) : Option Int :=
  ((List.range p.toNat).find? (fun n => (b * (n : Int)) % p == 1)).map
    (fun n => (n : Int))

/-- Modelled from the spec: `modular_arithmetic::div`, multiplicative
inverse times `mul`; fails if the divisor is zero or non-invertible. -/
def modDiv (a b p : Int) : Option Int :=
  (modInv b p).map (fun bi => (a * bi) % p)

/-! Coefficient-map primitives of `ArithmeticExpression` (algebra.rs). -/

/-- `initialize_hashmap_for_expression`: ensure the constant key is
bound (inserting `0` when absent). -/
def initializeHashmapForExpression (l : RExpr) : RExpr :=
  if containsKey constantCoefficient l then l else l ++ [(constantCoefficient, 0)]

/-- `initialize_symbol_in_coefficients`. -/
def initializeSymbolInCoefficients (s : Nat) (l : RExpr) : RExpr :=
  if containsKey s l then l else l ++ [(s, 0)]

/-- `add_constant_to_coefficients`. -/
def addConstantToCoefficients (v : Int) (l : RExpr) (p : Int) : RExpr :=
  setV constantCoefficient (modAdd ((getV constantCoefficient l).getD 0) v p) l

/-- `add_symbol_to_coefficients`. -/
def addSymbolToCoefficients (s : Nat) (coef : Int) (l : RExpr) (p : Int) : RExpr :=
  let l' := initializeSymbolInCoefficients s l
  setV s (modAdd ((getV s l').getD 0) coef p) l'

/-- `add_coefficients_to_coefficients`: pointwise merge of `src` into `dst`. -/
def addCoefficientsToCoefficients (src dst : RExpr) (p : Int) : RExpr :=
  src.foldl (fun d kv => addSymbolToCoefficients kv.1 kv.2 d p) dst

/-- `multiply_coefficients_by_constant`. -/
def multiplyCoefficientsByConstant (c : Int) (l : RExpr) (p : Int) : RExpr :=
  l.map (fun kv => (kv.1, modMul kv.2 c p))

/-- `divide_coefficients_by_constant` (fallible: field division). -/
def divideCoefficientsByConstant (c : Int) (l : RExpr) (p : Int) : Option RExpr :=
  match l with
  | [] => some []
  | (k, v) :: t =>
    match modDiv v c p, divideCoefficientsByConstant c t p with
    | some v', some t' => some ((k, v') :: t')
    | _, _ => none

/-- `remove_zero_value_coefficients`. -/
def removeZeroValueCoefficients (l : RExpr) : RExpr :=
  l.filter (fun kv => kv.2 ≠ 0)

/-! The algebraic data model. -/

/-- The five-variant tagged algebra of `ArithmeticExpression<usize>`. -/
inductive ArithmeticExpression where
  | number (value : Int)
  | signal (symbol : Nat)
  | linear (coefficients : RExpr)
  | quadratic (a b c : RExpr)
  | nonQuadratic
deriving DecidableEq

/-- The R1CS constraint `A*B - C = 0` (`Constraint<usize>`). -/
structure Constraint where
  a : RExpr
  b : RExpr
  c : RExpr
deriving DecidableEq

/-- `Substitution<usize>`: an oriented equality `from = to`.  The
source field names `from` and `to` are Lean keywords, so they are
embedded as `lhs` and `rhs`. -/
structure Substitution where
  lhs : Nat
  rhs : RExpr
deriving DecidableEq

namespace ArithmeticExpression

/-- `ArithmeticExpression::transform_expression_to_constraint_form`. -/
def transform_expression_to_constraint_form
    (e : ArithmeticExpression) (p : Int) : Option Constraint :=
  let a0 := initializeHashmapForExpression []
  let b0 := initializeHashmapForExpression []
  let c0 := initializeHashmapForExpression []
  match e with
  | .nonQuadratic => none
  | .quadratic oa ob oc =>
      some ⟨oa, ob, multiplyCoefficientsByConstant (-1) oc p⟩
  | .number v =>
      some ⟨a0, b0, multiplyCoefficientsByConstant (-1) (setV constantCoefficient v c0) p⟩
  | .signal s =>
      some ⟨a0, b0, multiplyCoefficientsByConstant (-1) (setV s 1 c0) p⟩
  | .linear coeffs =>
      some ⟨a0, b0, multiplyCoefficientsByConstant (-1) coeffs p⟩

end ArithmeticExpression

namespace Substitution

/-- `Substitution::new`: the four match arms of the source, in order.
A `Number` or `Signal` right-hand side always succeeds; a `Linear`
succeeds exactly when `from` is not among its keys; anything else
(including a `Linear` mentioning `from`) falls through to `None`. -/
def new (from_ : Nat) (e : ArithmeticExpression) : Option Substitution :=
  match e with
  | .number v => some ⟨from_, [(constantCoefficient, v)]⟩
  | .signal s => some ⟨from_, [(s, 1)]⟩
  | .linear coeffs =>
      if containsKey from_ coeffs then none else some ⟨from_, coeffs⟩
  | _ => none

end Substitution

namespace Constraint

/-- `Constraint::is_linear`. -/
def is_linear (con : Constraint) : Bool := con.a.isEmpty && con.b.isEmpty

/-- `Constraint::is_empty`. -/
def is_empty (con : Constraint) : Bool :=
  con.a.isEmpty && con.b.isEmpty && con.c.isEmpty

/-- `Constraint::has_constant_coefficient`, exactly as written in the
source: it tests the `a` map twice and never the `c` map. -/
def has_constant_coefficient (con : Constraint) : Bool :=
  containsKey constantCoefficient con.a
    || containsKey constantCoefficient con.b
    || containsKey constantCoefficient con.a

/-- `Constraint::into_arithmetic_expressions`. -/
def into_arithmetic_expressions (con : Constraint) :
    ArithmeticExpression × ArithmeticExpression × ArithmeticExpression :=
  (.linear con.a, .linear con.b, .linear con.c)

/-- `Constraint::clear_signal`: remove `key` from the map, then divide
the remainder by the negated extracted coefficient and strip zeros.
The source `unwrap`/`assert!` failure paths are embedded as `none`. -/
def clear_signal (symbols : RExpr) (key : Nat) (p : Int) : Option RExpr :=
  match getV key symbols with
  | none => none
  | some keyValue =>
    let symbols := eraseV key symbols
    if keyValue = 0 then none
    else
      let valueToTheRight := modMul keyValue (-1) p
      let symbols := initializeHashmapForExpression symbols
      match divideCoefficientsByConstant valueToTheRight symbols p with
      | none => none
      | some symbols => some (removeZeroValueCoefficients symbols)

/-- `Constraint::clear_signal_from_linear`. -/
def clear_signal_from_linear (con : Constraint) (signal : Nat) (p : Int) :
    Option Substitution :=
  (clear_signal con.c signal p).map (fun e => ⟨signal, e⟩)

end Constraint

/-- `is_constant_expression` (algebra.rs): only the constant key is bound. -/
def is_constant_expression (l : RExpr) : Bool :=
  containsKey constantCoefficient l && l.length = 1

/-- `constant_linear_linear_reduction`: fold a pure-constant `a` into
`c` by `c := c - constant * b`, then clear both `a` and `b`. -/
def constant_linear_linear_reduction (a b c : RExpr) (p : Int) : RExpr × RExpr × RExpr :=
  let c := initializeHashmapForExpression c
  let b := initializeHashmapForExpression b
  let constant := (getV constantCoefficient a).getD 0
  let b := multiplyCoefficientsByConstant constant b p
  let b := multiplyCoefficientsByConstant (-1) b p
  let c := addCoefficientsToCoefficients b c p
  ([], [], removeZeroValueCoefficients c)

/-- `fix_raw_constraint` (algebra.rs). -/
def fix_raw_constraint (a b c : RExpr) (p : Int) : RExpr × RExpr × RExpr :=
  let a := removeZeroValueCoefficients a
  let b := removeZeroValueCoefficients b
  let c := removeZeroValueCoefficients c
  if a.isEmpty || b.isEmpty then ([], [], c)
  else if is_constant_expression a then constant_linear_linear_reduction a b c p
  else if is_constant_expression b then
    let r := constant_linear_linear_reduction b a c p
    ([], [], r.2.2)
  else (a, b, c)

/-- `Constraint::fix_constraint`. -/
def Constraint.fix_constraint (con : Constraint) (p : Int) : Constraint :=
  let r := fix_raw_constraint con.a con.b con.c p
  ⟨r.1, r.2.1, r.2.2⟩

/-! Monomial extraction (algebra.rs). -/

/-- A monomial: an unordered pair of signal ids, stored sorted. -/
abbrev Monomial := Nat × Nat

/-- The sorted pair `(min, max)` as formed inside the monomial loops. -/
def sortPair (sa sb : Nat) : Monomial :=
  if sa < sb then (sa, sb) else (sb, sa)

/-- The accumulation step of `take_cloned_monomials`: the `match` on
`map_monomials.get(&monomial)` that adds the new product into the
slot of its monomial, or creates the slot. -/
def insertAddMon (p : Int) (acc : List (Monomial × Int)) (mv : Monomial × Int) :
    List (Monomial × Int) :=
  match getV mv.1 acc with
  | some coef => setV mv.1 (modAdd mv.2 coef p) acc
  | none => setV mv.1 mv.2 acc

namespace Constraint

/-- `Constraint::take_possible_cloned_monomials`: the set of sorted
pairs `(min(sa,sb), max(sa,sb))` over `sa ∈ keys(a)`, `sb ∈ keys(b)`
(`HashSet` semantics: duplicates collapse; first-seen order kept). -/
def take_possible_cloned_monomials (con : Constraint) : List Monomial :=
  con.a.foldl (fun acc kva =>
    con.b.foldl (fun acc kvb =>
      let mon := sortPair kva.1 kvb.1
      if mon ∈ acc then acc else acc ++ [mon]) acc) []

/-- `Constraint::take_cloned_monomials`: accumulate, for every ordered
pair of `a`/`b` entries, the field product into the slot of the sorted
pair; then keep the pairs with non-zero accumulated coefficient. -/
def take_cloned_monomials (con : Constraint) (p : Int) : List (Monomial × Int) :=
  let m := con.a.foldl (fun acc kva =>
    con.b.foldl (fun acc kvb =>
      insertAddMon p acc (sortPair kva.1 kvb.1, modMul kva.2 kvb.2 p)) acc) []
  m.filter (fun x => x.2 ≠ 0)

/-- `Constraint::get_value_monomial`: `a[m.0]*b[m.1] + a[m.1]*b[m.0]`,
each product contributing only when both keys are present. -/
def get_value_monomial (con : Constraint) (mon : Monomial) (p : Int) : Int :=
  let coef0 : Int := 0
  let coef1 :=
    match getV mon.2 con.b with
    | some coefB =>
      match getV mon.1 con.a with
      | some coefA => modAdd (modMul coefA coefB p) coef0 p
      | none => coef0
    | none => coef0
  match getV mon.1 con.b with
  | some coefB =>
    match getV mon.2 con.a with
    | some coefA => modAdd (modMul coefA coefB p) coef1 p
    | none => coef1
  | none => coef1

end Constraint

/-- The monomial coefficient exactly as claim C7 words it: the summed
field coefficient `a[sa]·b[sb] + a[sb]·b[sa]`, a term with a missing
key contributing 0.  (This matches `get_value_monomial`, which adds
both products even when `sa = sb`.) -/
def claimed_monomial_coefficient (con : Constraint) (x y : Nat) (p : Int) : Int :=
  modAdd (modMul ((getV x con.a).getD 0) ((getV y con.b).getD 0) p)
    (modMul ((getV y con.a).getD 0) ((getV x con.b).getD 0) p) p

/-- The coefficient `take_cloned_monomials` actually accumulates for
the sorted pair `(x, y)`: the claimed sum for `x ≠ y`, but the single
product `a[x]·b[x]` for the diagonal pair. -/
def amended_monomial_value (con : Constraint) (x y : Nat) (p : Int) : Int :=
  if x = y then modMul ((getV x con.a).getD 0) ((getV x con.b).getD 0) p
  else claimed_monomial_coefficient con x y p

/-- The ordered-pair contributions of the double loop of
`take_cloned_monomials`, flattened into one list (outer loop over `a`,
inner loop over `b`). -/
def monomialContributions : RExpr → RExpr → Int → List (Monomial × Int)
  | [], _, _ => []
  | kva :: ta, b, p =>
      b.map (fun kvb => (sortPair kva.1 kvb.1, modMul kva.2 kvb.2 p))
        ++ monomialContributions ta b p

/-- Left-to-right modular accumulation, mirroring how repeated
`insertAddMon` steps combine the values of one monomial slot. -/
def accMod (p : Int) : Int → List Int → Int
  | s, [] => s
  | s, v :: vs => accMod p ((v + s) % p) vs

/-- The value of one monomial slot after a run of `insertAddMon`
steps: `o` is the initial binding, the list holds the contributions
destined for this slot. -/
def slotAccum (p : Int) : Option Int → List Int → Option Int
  | some s0, vals => some (accMod p s0 vals)
  | none, [] => none
  | none, v :: vs => some (accMod p v vs)

/-! Zero-elimination (constraint_list/preprocess_non_linear.rs).

The two indices of `ProcessedConstraints` are embedded as association
lists; the storage is read-only throughout and is only consulted via
`read_constraint(c_id).unwrap().get_value_monomial(monomial, field)`,
embedded as `readValue` over a plain list of (decoded) constraints.
The mutual recursion of `compute_zero_constraints_monomial` and
`remove_zero_constraint` is fuel-indexed; `none` marks fuel
exhaustion, and the adequacy theorem shows the fuel
`|map_constraints_monomials| + 1` never runs out. -/

/-- `storage.read_constraint(c_id).unwrap().get_value_monomial(m, field)`
over the list view of the (read-only) storage. -/
def readValue (storage : List Constraint) (p : Int) (mon : Monomial) (c : Nat) : Int :=
  ((storage[c]?).getD ⟨[], [], []⟩).get_value_monomial mon p

/-- The two mutable indices of `ProcessedConstraints`:
`map_constraints_monomials` and `map_monomials_constraints`. -/
structure ZeroState where
  mcm : List (Nat × List Monomial)
  mmc : List (Monomial × List Nat)
deriving DecidableEq

/-- `list_mon.iter().position(|x| *x == c_id)`. -/
def findPos (c : Nat) : List Nat → Option Nat
  | [] => none
  | x :: t => if x = c then some 0 else (findPos c t).map (· + 1)

/-- `Vec::swap_remove(pos)`: replace position `i` by the last element
and pop the last element. -/
def swapRemove (l : List Nat) (i : Nat) : List Nat :=
  match l.getLast? with
  | none => l
  | some last => (l.set i last).dropLast

/-- The `if let Some(pos) = ... { list_mon.swap_remove(pos) }` step of
`remove_zero_constraint`. -/
def removeCid (c : Nat) (l : List Nat) : List Nat :=
  match findPos c l with
  | some i => swapRemove l i
  | none => l

/-- The first loop of `remove_zero_constraint`: delete `c` from the
constraint list of every monomial of `monos`. -/
def removeFromMonomialLists (c : Nat) (monos : List Monomial)
    (mmc : List (Monomial × List Nat)) : List (Monomial × List Nat) :=
  monos.foldl (fun m mon =>
    match getV mon m with
    | some listMon => setV mon (removeCid c listMon) m
    | none => m) mmc

mutual

/-- `compute_zero_constraints_monomial`: if `monomial` maps to exactly
one constraint in which its summed coefficient is non-zero, remove
that constraint (cascading). -/
def compute_zero_constraints_monomial (storage : List Constraint) (p : Int) :
    Nat → Monomial → ZeroState → Option ZeroState
  | 0, _, _ => none
  | fuel + 1, mon, st =>
    match getV mon st.mmc with
    | some listMon =>
      if listMon.length = 1 then
        match listMon with
        | cId :: _ =>
          if readValue storage p mon cId ≠ 0 then
            remove_zero_constraint storage p fuel cId st
          else some st
        | [] => some st
      else some st
    | none => some st
termination_by fuel _ _ => (fuel, 0, 0)
decreasing_by
  all_goals simp_wf
  all_goals
    first
      | (apply Prod.Lex.left; omega)
      | (apply Prod.Lex.right
         first
           | (apply Prod.Lex.left; omega)
           | (apply Prod.Lex.right; omega))

/-- `remove_zero_constraint`: delete `cId` from the list of every one
of its monomials, re-check each of those monomials, then drop `cId`
from `map_constraints_monomials`. -/
def remove_zero_constraint (storage : List Constraint) (p : Int) :
    Nat → Nat → ZeroState → Option ZeroState
  | fuel, cId, st =>
    match getV cId st.mcm with
    | some listCid =>
      (cascade_monomials storage p fuel listCid
          ⟨st.mcm, removeFromMonomialLists cId listCid st.mmc⟩).map
        (fun st2 => ⟨eraseV cId st2.mcm, st2.mmc⟩)
    | none => some st
termination_by fuel _ _ => (fuel, 2, 0)
decreasing_by
  all_goals simp_wf
  all_goals
    first
      | (apply Prod.Lex.left; omega)
      | (apply Prod.Lex.right
         first
           | (apply Prod.Lex.left; omega)
           | (apply Prod.Lex.right; omega))

/-- The `for monomial in list_cid.clone()` re-check loop of
`remove_zero_constraint`. -/
def cascade_monomials (storage : List Constraint) (p : Int) :
    Nat → List Monomial → ZeroState → Option ZeroState
  | _, [], st => some st
  | fuel, mon :: ms, st =>
    match compute_zero_constraints_monomial storage p fuel mon st with
    | some st' => cascade_monomials storage p fuel ms st'
    | none => none
termination_by fuel ms _ => (fuel, 1, ms.length + 1)
decreasing_by
  all_goals simp_wf
  all_goals
    first
      | (apply Prod.Lex.left; omega)
      | (apply Prod.Lex.right
         first
           | (apply Prod.Lex.left; omega)
           | (apply Prod.Lex.right; omega))

end

/-- `ProcessedConstraints::compute_zero_constraints`: the loop over
`list_monomials`. -/
def compute_zero_constraints (storage : List Constraint) (p : Int) (fuel : Nat) :
    List Monomial → ZeroState → Option ZeroState
  | [], st => some st
  | mon :: rest, st =>
    match compute_zero_constraints_monomial storage p fuel mon st with
    | some st' => compute_zero_constraints storage p fuel rest st'
    | none => none

/-- The inner `match self.map_monomials_constraints.get_mut(&monomial)`
of `create_table_monomials`: append `c_id` to the monomial's list, or
create the entry and record the monomial in `list_monomials`. -/
def registerMonomial (cId : Nat) (mon : Monomial)
    (acc : List Monomial × List (Monomial × List Nat)) :
    List Monomial × List (Monomial × List Nat) :=
  match getV mon acc.2 with
  | some lst => (acc.1, setV mon (lst ++ [cId]) acc.2)
  | none => (acc.1 ++ [mon], setV mon [cId] acc.2)

/-- One iteration of the `for c_id in storage.get_ids()` loop of
`create_table_monomials`: skip empty constraints, otherwise register
every monomial of the constraint and record its monomial list. -/
def createTableStep (acc : List Monomial × ZeroState) (ic : Nat × Constraint) :
    List Monomial × ZeroState :=
  if ic.2.is_empty then acc
  else
    let monos := ic.2.take_possible_cloned_monomials
    let r := monos.foldl (fun a mon => registerMonomial ic.1 mon a)
      (acc.1, acc.2.mmc)
    (r.1, ⟨setV ic.1 monos acc.2.mcm, r.2⟩)

/-- `ProcessedConstraints::create_table_monomials` (as run by
`ProcessedConstraints::new`): returns `list_monomials` and the two
indices, built from the non-empty constraints of the storage. -/
def create_table_monomials (storage : List Constraint) :
    List Monomial × ZeroState :=
  storage.enum.foldl createTableStep ([], ⟨[], []⟩)

/-- The offending situation of claim C8: `mon` maps to exactly one
surviving constraint whose summed coefficient at `mon` is non-zero. -/
def badMon (storage : List Constraint) (p : Int) (st : ZeroState)
    (mon : Monomial) : Prop :=
  ∃ c, getV mon st.mmc = some [c] ∧ readValue storage p mon c ≠ 0

/-- The set of constraint ids still referenced by some monomial list. -/
def cidSet (st : ZeroState) : Finset Nat :=
  st.mmc.foldr (fun e acc => e.2.toFinset ∪ acc) ∅

/-- The invariants of the two indices that `create_table_monomials`
establishes and the cascade maintains: distinct keys on both maps,
duplicate-free value lists, and coherence — every constraint named in
a monomial's list owns that monomial in `map_constraints_monomials`. -/
def ZInv (st : ZeroState) : Prop :=
  NodupKeys st.mmc ∧ NodupKeys st.mcm ∧
  (∀ mon lst, getV mon st.mmc = some lst → lst.Nodup) ∧
  (∀ c monos, getV c st.mcm = some monos → monos.Nodup) ∧
  (∀ mon lst c, getV mon st.mmc = some lst → c ∈ lst →
    ∃ monos, getV c st.mcm = some monos ∧ mon ∈ monos)

/-- Pointwise shrinking of the monomial index: same domain, every
constraint list a subset of what it was. -/
def Shrunk (st st' : ZeroState) : Prop :=
  (∀ mon, (getV mon st'.mmc).isSome = (getV mon st.mmc).isSome) ∧
  (∀ mon l l', getV mon st.mmc = some l → getV mon st'.mmc = some l' → l' ⊆ l)

/-! `rebuild_witness` (constraint_simplification.rs). -/

/-- The loop body of `rebuild_witness`, recursing over the remaining
signal ids; `map` accumulates insertions, `free` is the FIFO of free
slots (`push_back` = append, `pop_front` = head). -/
def rebuild_witness_go (deleted : List Nat) :
    List Nat → List (Nat × Nat) → List Nat → List (Nat × Nat)
  | [], map, _ => map
  | signal :: rest, map, free =>
    if signal ∈ deleted then
      rebuild_witness_go deleted rest map (free ++ [signal])
    else
      match free with
      | newPos :: freeRest =>
          rebuild_witness_go deleted rest (map ++ [(signal, newPos)])
            (freeRest ++ [signal])
      | [] => rebuild_witness_go deleted rest (map ++ [(signal, signal)]) []

/-- `rebuild_witness(max_signal, deleted)`. -/
def rebuild_witness (maxSignal : Nat) (deleted : List Nat) : List (Nat × Nat) :=
  rebuild_witness_go deleted (List.range maxSignal) [] []

/-- The walk exactly as the claim words it: a deleted signal is
enqueued as a free slot; an alive signal takes the lowest pending free
slot if one exists (without freeing its own), else maps to itself. -/
def rebuild_witness_claimed_go (deleted : List Nat) :
    List Nat → List (Nat × Nat) → List Nat → List (Nat × Nat)
  | [], map, _ => map
  | signal :: rest, map, free =>
    if signal ∈ deleted then
      rebuild_witness_claimed_go deleted rest map (free ++ [signal])
    else
      match free with
      | newPos :: freeRest =>
          rebuild_witness_claimed_go deleted rest (map ++ [(signal, newPos)]) freeRest
      | [] => rebuild_witness_claimed_go deleted rest (map ++ [(signal, signal)]) []

/-- `rebuild_witness` as described by the claim. -/
def rebuild_witness_claimed (maxSignal : Nat) (deleted : List Nat) : List (Nat × Nat) :=
  rebuild_witness_claimed_go deleted (List.range maxSignal) [] []

/-! Constraint storage (constraint_storage/mod.rs).

The compression helper `logic::code_constraint` lives in the
`logic` submodule, which is not among the sources at hand; it is
modelled from the spec §4.4: each field value is replaced by a
constant-ID issued by a per-storage interning table, order-preserving
and first-seen. -/

/-- A compressed coefficient map: `Vec<(CID, S)>`. -/
abbrev CompressedExpr := List (Nat × Nat)

/-- A compressed constraint: compressed `A`, `B`, `C`. -/
abbrev CompressedConstraint := CompressedExpr × CompressedExpr × CompressedExpr

/-- Modelled from the spec: the interning table issues the id of the
first occurrence of a value, appending unseen values. -/
def internConstant (v : Int) (tracker : List Int) : Nat × List Int :=
  match tracker.indexOf? v with
  | some i => (i, tracker)
  | none => (tracker.length, tracker ++ [v])

/-- Modelled from the spec: compress one coefficient map. -/
def codeExpr (l : RExpr) (tracker : List Int) : CompressedExpr × List Int :=
  l.foldl (fun acc kv =>
    let r := internConstant kv.2 acc.2
    (acc.1 ++ [(r.1, kv.1)], r.2)) ([], tracker)

/-- Modelled from the spec: `logic::code_constraint`. -/
def codeConstraint (con : Constraint) (tracker : List Int) :
    CompressedConstraint × List Int :=
  let ra := codeExpr con.a tracker
  let rb := codeExpr con.b ra.2
  let rc := codeExpr con.c rb.2
  ((ra.1, rb.1, rc.1), rc.2)

/-- `ConstraintStorage`: interning table plus the slot vector, each
slot holding a compressed constraint and its lineage id. -/
structure ConstraintStorage where
  fieldTracker : List Int
  constraints : List (CompressedConstraint × Nat)

namespace ConstraintStorage

/-- `ConstraintStorage::new`. -/
def new : ConstraintStorage := ⟨[], []⟩

/-- `ConstraintStorage::add_constraint`: the fresh id is the current
length, and it is recorded as the slot's lineage id as well. -/
def add_constraint (st : ConstraintStorage) (con : Constraint) :
    ConstraintStorage × Nat :=
  let id := st.constraints.length
  let r := codeConstraint con st.fieldTracker
  (⟨r.2, st.constraints ++ [(r.1, id)]⟩, id)

/-- `ConstraintStorage::add_constraint_with_prev_id`. -/
def add_constraint_with_prev_id (st : ConstraintStorage) (con : Constraint)
    (prevId : Nat) : ConstraintStorage × Nat :=
  let id := st.constraints.length
  let r := codeConstraint con st.fieldTracker
  (⟨r.2, st.constraints ++ [(r.1, prevId)]⟩, id)

/-- `ConstraintStorage::read_constraint_prev_id`. -/
def read_constraint_prev_id (st : ConstraintStorage) (id : Nat) : Option Nat :=
  if id < st.constraints.length then (st.constraints.get? id).map (·.2)
  else none

/-- `ConstraintStorage::get_no_constraints`. -/
def get_no_constraints (st : ConstraintStorage) : Nat := st.constraints.length

end ConstraintStorage

/-! Helper lemmas about the association-list primitives. -/

theorem getV_map_values {α β γ : Type} [DecidableEq α] (f : β → γ) (k : α) (l : List (α × β)) :
    getV k (l.map (fun kv => (kv.1, f kv.2))) = (getV k l).map f := by
  induction l with
  | nil => rfl
  | cons hd tl ih =>
    simp only [List.map_cons, getV]
    by_cases h : hd.1 = k
    · simp [h]
    · simp [h, ih]

theorem getV_append_single {α β : Type} [DecidableEq α] (s k : α) (v : β) (l : List (α × β)) :
    getV s (l ++ [(k, v)]) =
      match getV s l with
      | some v' => some v'
      | none => if k = s then some v else none := by
  induction l with
  | nil => simp [getV]
  | cons hd tl ih =>
    simp only [List.cons_append, getV]
    by_cases h : hd.1 = s
    · simp [h]
    · simp [h, ih]

theorem getV_append_single_isSome {α β : Type} [DecidableEq α] (s k : α) (v : β) (l : List (α × β)) :
    (getV s (l ++ [(k, v)])).isSome = true ↔
      (getV s l).isSome = true ∨ s = k := by
  rw [getV_append_single]
  cases h : getV s l with
  | some v' => simp
  | none =>
    by_cases hk : k = s
    · simp [hk]
    · simp [hk, Ne.symm hk]

/-! Claim C10 — `add_constraint` returns the pre-call count and records
its own id as its lineage id. -/

/-- Claim C10: for every storage state and constraint, `add_constraint`
returns an id equal to the number of constraints stored before the
call, and `read_constraint_prev_id` at that id afterwards returns the
id itself. -/
theorem add_constraint_id_and_prev_id (st : ConstraintStorage) (con : Constraint) :
    (st.add_constraint con).2 = st.get_no_constraints ∧
    (st.add_constraint con).1.read_constraint_prev_id ((st.add_constraint con).2)
      = some ((st.add_constraint con).2) := by
  refine ⟨rfl, ?_⟩
  simp only [ConstraintStorage.add_constraint, ConstraintStorage.read_constraint_prev_id,
    ConstraintStorage.get_no_constraints]
  rw [if_pos (by simp)]
  rw [List.get?_eq_getElem?, List.getElem?_concat_length]
  rfl

/-! Claim C9 — `has_constant_coefficient` tests `a` twice and never
`c`; the intended predicate (any of `a`, `b`, `c` contains the
constant key) disagrees with the code on a purely linear constraint
with a constant term. -/

/-- Claim C9: at the failing input `a = ∅`, `b = ∅`, `c = {constant: 1}`
the code returns `false` although `c` contains the constant key, so the
implementation does not compute the intended predicate
"any of a, b, c contains the constant key". -/
theorem has_constant_coefficient_ignores_c :
    Constraint.has_constant_coefficient ⟨[], [], [(constantCoefficient, 1)]⟩ = false ∧
    containsKey constantCoefficient ([(constantCoefficient, 1)] : RExpr) = true := by
  constructor <;> rfl

/-! Claim C2 — shape of `a` and `b` after `fix_constraint`. -/

theorem fix_raw_constraint_shape (a b c : RExpr) (p : Int) :
    ((fix_raw_constraint a b c p).1 = [] ∧ (fix_raw_constraint a b c p).2.1 = []) ∨
    ((fix_raw_constraint a b c p).1 ≠ [] ∧ (fix_raw_constraint a b c p).2.1 ≠ [] ∧
      is_constant_expression (fix_raw_constraint a b c p).1 = false ∧
      is_constant_expression (fix_raw_constraint a b c p).2.1 = false) := by
  simp only [fix_raw_constraint]
  split_ifs with h1 h2 h3
  · left; exact ⟨rfl, rfl⟩
  · left; exact ⟨rfl, rfl⟩
  · left; exact ⟨rfl, rfl⟩
  · right
    simp only [Bool.or_eq_true, List.isEmpty_iff] at h1
    push_neg at h1
    exact ⟨h1.1, h1.2, Bool.eq_false_iff.mpr h2, Bool.eq_false_iff.mpr h3⟩

/-- Claim C2: after `fix_constraint`, either the `a` and `b` maps are
both empty, or both are non-empty and neither is a pure constant (a
map whose only key is the constant key); in particular if either side
empties, the other is forced empty too. -/
theorem fix_constraint_a_b_shape (con : Constraint) (p : Int) :
    ((con.fix_constraint p).a = [] ∧ (con.fix_constraint p).b = []) ∨
    ((con.fix_constraint p).a ≠ [] ∧ (con.fix_constraint p).b ≠ [] ∧
      is_constant_expression (con.fix_constraint p).a = false ∧
      is_constant_expression (con.fix_constraint p).b = false) := by
  simpa only [Constraint.fix_constraint] using
    fix_raw_constraint_shape con.a con.b con.c p

/-! Claim C1 — `Substitution::new` and occurrences of `from` in `to`. -/

/-- Claim C1 counterexample: constructing a substitution from the bare
signal equal to `from` succeeds even though the right-hand side
mentions the left-hand signal, contradicting "construction returns
None if from appears among the keys (or is the symbol) of to". -/
theorem substitution_new_accepts_self_signal :
    Substitution.new 1 (ArithmeticExpression.signal 1)
        = some ⟨1, [(1, 1)]⟩ ∧
    containsKey 1 (([(1, 1)] : RExpr)) = true := by
  constructor <;> rfl

/-- Claim C1 (amended): `Substitution::new` succeeds for every Number
and Signal right-hand side (even one mentioning `from`), succeeds for
a Linear exactly when `from` is not among its keys, and fails on any
other shape; only substitutions built from Linear expressions are
guaranteed not to mention `from` among the keys of `to`. -/
theorem substitution_new_characterization (f : Nat) (e : ArithmeticExpression) :
    ((Substitution.new f e).isSome = true ↔
      (∃ v, e = .number v) ∨ (∃ s, e = .signal s) ∨
      (∃ L, e = .linear L ∧ containsKey f L = false)) ∧
    (∀ L s, e = .linear L → Substitution.new f e = some s →
      containsKey s.lhs s.rhs = false) := by
  constructor
  · cases e with
    | number v => simp [Substitution.new]
    | signal s => simp [Substitution.new]
    | linear L =>
      simp only [Substitution.new]
      by_cases h : containsKey f L
      · simp [h]
      · simp [h]
    | quadratic a b c => simp [Substitution.new]
    | nonQuadratic => simp [Substitution.new]
  · intro L s hL hsome
    subst hL
    simp only [Substitution.new] at hsome
    by_cases h : containsKey f L
    · simp [h] at hsome
    · simp only [h, if_neg, Bool.false_eq_true, not_false_iff, if_false] at hsome
      cases hsome
      simpa using Bool.eq_false_iff.mpr h

/-- Witness for C1's amended theorem at a concrete input. -/
theorem substitution_new_characterization_witness :
    ((Substitution.new 3 (.linear [(0, 2), (1, 5)])).isSome = true) ∧
    (∀ s, Substitution.new 3 (.linear [(0, 2), (1, 5)]) = some s →
      containsKey s.lhs s.rhs = false) := by
  refine ⟨?_, ?_⟩
  · exact (substitution_new_characterization 3 (.linear [(0, 2), (1, 5)])).1.mpr
      (Or.inr (Or.inr ⟨[(0, 2), (1, 5)], rfl, by decide⟩))
  · intro s hs
    exact (substitution_new_characterization 3 (.linear [(0, 2), (1, 5)])).2
      [(0, 2), (1, 5)] s rfl hs

/-! Claim C4 — `transform_expression_to_constraint_form`. -/

/-- Claim C4 counterexample: on the Linear input `x + 0`, the returned
`a` map is `{constant: 0}`, not the empty map the claim demands (the
initializer always seeds `a` and `b` with the constant key). -/
theorem transform_linear_a_nonempty :
    ArithmeticExpression.transform_expression_to_constraint_form
        (.linear [(0, 0), (1, 1)]) 257
      = some ⟨[(0, 0)], [(0, 0)], [(0, 0), (1, 256)]⟩ ∧
    ([(0, 0)] : RExpr) ≠ [] := by
  constructor
  · rfl
  · simp

/-- Claim C4 (amended): the conversion returns `none` exactly on
NonQuadratic input, and on a Linear input it returns a constraint
whose `a` and `b` maps are the singleton `{constant: 0}` (the
algebraically-zero linear expression) and whose `c` map is the input
with every coefficient negated modulo the field. -/
theorem transform_expression_to_constraint_form_characterization
    (e : ArithmeticExpression) (p : Int) :
    (ArithmeticExpression.transform_expression_to_constraint_form e p = none ↔
      e = .nonQuadratic) ∧
    (∀ L, e = .linear L →
      ∃ con, ArithmeticExpression.transform_expression_to_constraint_form e p = some con ∧
        con.a = [(constantCoefficient, 0)] ∧ con.b = [(constantCoefficient, 0)] ∧
        ∀ k, getV k con.c = (getV k L).map (fun v => modMul v (-1) p)) := by
  constructor
  · cases e <;>
      simp [ArithmeticExpression.transform_expression_to_constraint_form]
  · intro L hL
    subst hL
    refine ⟨_, rfl, rfl, rfl, ?_⟩
    intro k
    exact getV_map_values (fun v => modMul v (-1) p) k L

/-- Witness for C4's amended theorem at a concrete input. -/
theorem transform_expression_characterization_witness :
    (ArithmeticExpression.transform_expression_to_constraint_form
        (.linear [(0, 3), (2, 5)]) 257 ≠ none) ∧
    (∃ con, ArithmeticExpression.transform_expression_to_constraint_form
        (.linear [(0, 3), (2, 5)]) 257 = some con ∧
      con.a = [(constantCoefficient, 0)] ∧ con.b = [(constantCoefficient, 0)] ∧
      getV 2 con.c = some 252) := by
  have h := transform_expression_to_constraint_form_characterization
    (.linear [(0, 3), (2, 5)]) 257
  constructor
  · intro hnone
    exact ArithmeticExpression.noConfusion (h.1.mp hnone)
  · obtain ⟨con, hcon, ha, hb, hc⟩ := h.2 [(0, 3), (2, 5)] rfl
    refine ⟨con, hcon, ha, hb, ?_⟩
    rw [hc 2]
    rfl

/-! Claim C3 — `rebuild_witness`. -/

/-- Claim C3 counterexample: with `max_signal = 3` and
`deleted = {0}`, the code maps signal 2 to slot 1 (an alive signal
that consumes a free slot re-enqueues its own id as a new free slot),
while the walk described by the claim — in which only deleted signals
ever become free slots — maps signal 2 to itself. -/
theorem rebuild_witness_reuses_vacated_slots :
    rebuild_witness 3 [0] = [(1, 0), (2, 1)] ∧
    rebuild_witness_claimed 3 [0] = [(1, 0), (2, 2)] ∧
    rebuild_witness 3 [0] ≠ rebuild_witness_claimed 3 [0] := by
  refine ⟨rfl, rfl, ?_⟩
  decide

theorem rebuild_witness_go_keys (deleted : List Nat) (sigs : List Nat)
    (map : List (Nat × Nat)) (free : List Nat) (s : Nat) :
    (getV s (rebuild_witness_go deleted sigs map free)).isSome = true ↔
      (getV s map).isSome = true ∨ (s ∈ sigs ∧ s ∉ deleted) := by
  induction sigs generalizing map free with
  | nil => simp [rebuild_witness_go]
  | cons signal rest ih =>
    simp only [rebuild_witness_go]
    by_cases hdel : signal ∈ deleted
    · rw [if_pos hdel, ih]
      constructor
      · rintro (h | h)
        · exact Or.inl h
        · exact Or.inr ⟨List.mem_cons_of_mem _ h.1, h.2⟩
      · rintro (h | ⟨hmem, hnd⟩)
        · exact Or.inl h
        · rcases List.mem_cons.mp hmem with rfl | hmem'
          · exact absurd hdel hnd
          · exact Or.inr ⟨hmem', hnd⟩
    · rw [if_neg hdel]
      have step : ∀ (newPos : Nat) (free' : List Nat),
          ((getV s (rebuild_witness_go deleted rest
              (map ++ [(signal, newPos)]) free')).isSome = true ↔
            (getV s map).isSome = true ∨ (s ∈ signal :: rest ∧ s ∉ deleted)) := by
        intro newPos free'
        rw [ih]
        rw [getV_append_single_isSome]
        constructor
        · rintro ((h | rfl) | h)
          · exact Or.inl h
          · exact Or.inr ⟨List.mem_cons_self _ _, hdel⟩
          · exact Or.inr ⟨List.mem_cons_of_mem _ h.1, h.2⟩
        · rintro (h | ⟨hmem, hnd⟩)
          · exact Or.inl (Or.inl h)
          · rcases List.mem_cons.mp hmem with rfl | hmem'
            · exact Or.inl (Or.inr rfl)
            · exact Or.inr ⟨hmem', hnd⟩
      cases free with
      | nil => exact step signal []
      | cons newPos freeRest => exact step newPos (freeRest ++ [signal])

/-- Claim C3 (amended): `rebuild_witness(max_signal, deleted)` returns
a map whose keys are exactly the non-deleted signals in
`[0, max_signal)`; the walk enqueues a deleted signal as a free slot,
and an alive signal takes the lowest pending free slot if one exists —
then re-enqueues its own id as a new free slot — and otherwise maps to
itself. -/
theorem rebuild_witness_keys (maxSignal : Nat) (deleted : List Nat) (s : Nat) :
    (getV s (rebuild_witness maxSignal deleted)).isSome = true ↔
      s < maxSignal ∧ s ∉ deleted := by
  rw [rebuild_witness, rebuild_witness_go_keys]
  simp [getV, List.mem_range]

/-! Claim C5 — round-trip Linear → Constraint → arithmetic expressions. -/

theorem modMul_neg_one_involutive {v p : Int} (h0 : 0 ≤ v) (hv : v < p) :
    modMul (modMul v (-1) p) (-1) p = v := by
  simp only [modMul]
  have h1 : (v * -1 % p * -1) % p = (v * -1 * -1) % p := by
    rw [Int.mul_emod, Int.emod_emod_of_dvd _ (dvd_refl p), ← Int.mul_emod]
  rw [h1]
  have h2 : v * -1 * -1 = v := by ring
  rw [h2]
  exact Int.emod_eq_of_lt h0 hv

/-- Claim C5: for every Linear expression `L` whose coefficients are
canonically reduced to `[0, p)` and which contains the constant key,
converting to a Constraint via `transform_expression_to_constraint_form`
and back via `into_arithmetic_expressions` yields a third component
whose coefficient map, negated modulo `p`, equals `L`'s map. -/
theorem linear_expression_round_trip (L : RExpr) (p : Int)
    (hcanon : ∀ kv ∈ L, 0 ≤ kv.2 ∧ kv.2 < p)
    (hconst : containsKey constantCoefficient L = true) :
    ∃ con cMap,
      ArithmeticExpression.transform_expression_to_constraint_form (.linear L) p
        = some con ∧
      (Constraint.into_arithmetic_expressions con).2.2 = .linear cMap ∧
      multiplyCoefficientsByConstant (-1) cMap p = L := by
  refine ⟨_, _, rfl, rfl, ?_⟩
  simp only [multiplyCoefficientsByConstant, List.map_map]
  have : ∀ kv ∈ L,
      ((fun kv : Nat × Int => (kv.1, modMul kv.2 (-1) p)) ∘
        fun kv : Nat × Int => (kv.1, modMul kv.2 (-1) p)) kv = kv := by
    intro kv hkv
    obtain ⟨h0, hv⟩ := hcanon kv hkv
    simp only [Function.comp_apply]
    rw [modMul_neg_one_involutive h0 hv]
  calc L.map _ = L.map id := List.map_congr_left this
    _ = L := List.map_id L

/-- Witness for C5 at the concrete map `3 + 5·x₁` over `p = 257`. -/
theorem linear_expression_round_trip_witness :
    (∀ kv ∈ ([(0, 3), (1, 5)] : RExpr), 0 ≤ kv.2 ∧ kv.2 < 257) ∧
    ∃ con cMap,
      ArithmeticExpression.transform_expression_to_constraint_form
          (.linear [(0, 3), (1, 5)]) 257 = some con ∧
      (Constraint.into_arithmetic_expressions con).2.2 = .linear cMap ∧
      multiplyCoefficientsByConstant (-1) cMap 257 = [(0, 3), (1, 5)] := by
  exact ⟨by decide,
    linear_expression_round_trip [(0, 3), (1, 5)] 257 (by decide) (by decide)⟩

/-! More association-list lemmas (lookup after erase, filter, map). -/

theorem getV_eq_none_iff {α β : Type} [DecidableEq α] (t : α) (l : List (α × β)) :
    getV t l = none ↔ t ∉ l.map Prod.fst := by
  induction l with
  | nil => simp [getV]
  | cons hd tl ih =>
    simp only [getV, List.map_cons, List.mem_cons, not_or]
    by_cases h : hd.1 = t
    · simp [h]
    · rw [if_neg h, ih]
      constructor
      · intro hm
        exact ⟨fun hc => h hc.symm, hm⟩
      · exact And.right

theorem eraseV_keys_sublist {α β : Type} [DecidableEq α] (k : α) (l : List (α × β)) :
    ((eraseV k l).map Prod.fst).Sublist (l.map Prod.fst) := by
  induction l with
  | nil => simp [eraseV]
  | cons hd tl ih =>
    simp only [eraseV]
    by_cases h : hd.1 = k
    · rw [if_pos h]
      simp only [List.map_cons]
      exact List.sublist_cons_self _ _
    · rw [if_neg h]
      simp only [List.map_cons]
      exact List.Sublist.cons₂ _ ih

theorem NodupKeys.eraseV {α β : Type} [DecidableEq α] {l : List (α × β)} (h : NodupKeys l) (k : α) :
    NodupKeys (WitnessOptimizer.eraseV k l) :=
  (eraseV_keys_sublist k l).nodup h

theorem getV_eraseV_ne {α β : Type} [DecidableEq α] {t s : α} (hts : t ≠ s) (l : List (α × β)) :
    getV t (eraseV s l) = getV t l := by
  induction l with
  | nil => rfl
  | cons hd tl ih =>
    by_cases h : hd.1 = s
    · have hht : hd.1 ≠ t := fun hc => hts (hc.symm.trans h)
      simp only [eraseV, if_pos h, getV, if_neg hht]
    · simp only [eraseV, if_neg h, getV]
      by_cases h2 : hd.1 = t
      · simp [h2]
      · simp [h2, ih]

theorem getV_eraseV_self {α β : Type} [DecidableEq α] {l : List (α × β)} (h : NodupKeys l) (s : α) :
    getV s (eraseV s l) = none := by
  induction l with
  | nil => rfl
  | cons hd tl ih =>
    simp only [NodupKeys, List.map_cons, List.nodup_cons] at h
    simp only [eraseV]
    by_cases hk : hd.1 = s
    · rw [if_pos hk, getV_eq_none_iff]
      exact hk ▸ h.1
    · rw [if_neg hk]
      simp only [getV, if_neg hk]
      exact ih h.2

theorem getV_removeZeros {l : RExpr} (h : NodupKeys l) (t : Nat) :
    getV t (removeZeroValueCoefficients l) =
      (getV t l).bind (fun v => if v = 0 then none else some v) := by
  induction l with
  | nil => rfl
  | cons hd tl ih =>
    have h' := h
    simp only [NodupKeys, List.map_cons, List.nodup_cons] at h'
    obtain ⟨h1, h2⟩ := h'
    simp only [removeZeroValueCoefficients] at ih ⊢
    rw [List.filter_cons]
    by_cases hv : hd.2 = 0
    · rw [if_neg (by simp [hv])]
      rw [ih h2]
      simp only [getV]
      by_cases hk : hd.1 = t
      · rw [if_pos hk]
        have hnone : getV t tl = none := (getV_eq_none_iff t tl).mpr (hk ▸ h1)
        rw [hnone]
        simp [hv]
      · rw [if_neg hk]
    · rw [if_pos (by simp [hv])]
      simp only [getV]
      by_cases hk : hd.1 = t
      · rw [if_pos hk, if_pos hk]
        simp [hv]
      · rw [if_neg hk, if_neg hk]
        exact ih h2

theorem divideCoefficientsByConstant_of_inv {c p ci : Int}
    (hinv : modInv c p = some ci) (l : RExpr) :
    divideCoefficientsByConstant c l p =
      some (l.map (fun kv => (kv.1, (kv.2 * ci) % p))) := by
  induction l with
  | nil => rfl
  | cons hd tl ih =>
    simp [divideCoefficientsByConstant, modDiv, hinv, ih]

theorem keys_map_values {α β γ : Type} (f : β → γ) (l : List (α × β)) :
    ((l.map (fun kv => (kv.1, f kv.2))).map Prod.fst) = l.map Prod.fst := by
  induction l with
  | nil => rfl
  | cons hd tl ih => simp [ih]

theorem containsKey_eq_false_iff {α β : Type} [DecidableEq α] (k : α) (l : List (α × β)) :
    containsKey k l = false ↔ getV k l = none := by
  cases h : getV k l <;> simp [containsKey, h]

theorem NodupKeys.initializeHashmap {l : RExpr} (h : NodupKeys l) :
    NodupKeys (initializeHashmapForExpression l) := by
  unfold initializeHashmapForExpression
  by_cases hc : containsKey constantCoefficient l
  · rw [if_pos hc]; exact h
  · rw [if_neg hc]
    simp only [NodupKeys, List.map_append, List.map_cons, List.map_nil]
    rw [List.nodup_append]
    refine ⟨h, List.nodup_singleton _, ?_⟩
    intro x hx hx0
    simp only [List.mem_singleton] at hx0
    subst hx0
    have : getV constantCoefficient l = none :=
      (containsKey_eq_false_iff _ _).mp (Bool.eq_false_iff.mpr hc)
    exact ((getV_eq_none_iff _ _).mp this) hx

/-! Claim C6 — `clear_signal_from_linear`. -/

/-- Claim C6: for every linear constraint whose `c` map contains
signal `s` with non-zero coefficient `k` (with `−k` invertible, its
inverse being `ki`), `clear_signal_from_linear` returns the
substitution from `s` whose map is the remaining `c` (with `s`
removed), every coefficient divided by `−k` in the field (i.e.
multiplied by `ki`), and zero-valued entries stripped. -/
theorem clear_signal_from_linear_characterization
    (con : Constraint) (s : Nat) (p : Int) (k ki : Int)
    (hlin : con.is_linear = true)
    (hnodup : NodupKeys con.c)
    (hk : getV s con.c = some k) (hk0 : k ≠ 0)
    (hinv : modInv (modMul k (-1) p) p = some ki) :
    ∃ sub, Constraint.clear_signal_from_linear con s p = some sub ∧
      sub.lhs = s ∧
      ∀ t, getV t sub.rhs =
        if t = s then none
        else (getV t con.c).bind
          (fun v => if (v * ki) % p = 0 then none else some ((v * ki) % p)) := by
  have hbase : Constraint.clear_signal con.c s p
      = some (removeZeroValueCoefficients
          ((initializeHashmapForExpression (eraseV s con.c)).map
            (fun kv => (kv.1, (kv.2 * ki) % p)))) := by
    simp only [Constraint.clear_signal, hk, if_neg hk0,
      divideCoefficientsByConstant_of_inv hinv]
  refine ⟨⟨s, removeZeroValueCoefficients
      ((initializeHashmapForExpression (eraseV s con.c)).map
        (fun kv => (kv.1, (kv.2 * ki) % p)))⟩,
    by simp [Constraint.clear_signal_from_linear, hbase], rfl, ?_⟩
  intro t
  have hnd1 : NodupKeys (eraseV s con.c) := hnodup.eraseV s
  have hnd2 : NodupKeys (initializeHashmapForExpression (eraseV s con.c)) :=
    hnd1.initializeHashmap
  have hnd3 : NodupKeys ((initializeHashmapForExpression (eraseV s con.c)).map
      (fun kv => (kv.1, (kv.2 * ki) % p))) := by
    unfold NodupKeys
    rw [keys_map_values (fun v => v * ki % p)]
    exact hnd2
  rw [getV_removeZeros hnd3, getV_map_values (fun v => v * ki % p)]
  by_cases hts : t = s
  · subst hts
    rw [if_pos rfl]
    unfold initializeHashmapForExpression
    by_cases hc : containsKey constantCoefficient (eraseV t con.c)
    · rw [if_pos hc, getV_eraseV_self hnodup]
      rfl
    · rw [if_neg hc, getV_append_single, getV_eraseV_self hnodup]
      by_cases ht0 : constantCoefficient = t
      · rw [if_pos ht0]
        simp
      · rw [if_neg ht0]
        rfl
  · rw [if_neg hts]
    unfold initializeHashmapForExpression
    by_cases hc : containsKey constantCoefficient (eraseV s con.c)
    · rw [if_pos hc, getV_eraseV_ne hts]
      cases getV t con.c <;> rfl
    · rw [if_neg hc, getV_append_single, getV_eraseV_ne hts]
      cases hg : getV t con.c with
      | some v => rfl
      | none =>
        by_cases ht0 : constantCoefficient = t
        · rw [if_pos ht0]
          simp
        · rw [if_neg ht0]
          rfl

/-- Witness for C6: the spec's concrete scenario over `p = 257`:
clearing `x` (signal 1) from `x + y + 3 = 0` yields
`x → {y: 256, constant: 254}`. -/
theorem clear_signal_from_linear_witness :
    ∃ sub, Constraint.clear_signal_from_linear
        ⟨[], [], [(1, 1), (2, 1), (0, 3)]⟩ 1 257 = some sub ∧
      sub.lhs = 1 ∧ getV 2 sub.rhs = some 256 ∧
      getV 0 sub.rhs = some 254 ∧ getV 1 sub.rhs = none := by
  obtain ⟨sub, hsub, hlhs, hget⟩ :=
    clear_signal_from_linear_characterization
      ⟨[], [], [(1, 1), (2, 1), (0, 3)]⟩ 1 257 1 256
      rfl (by decide) rfl (by decide) (by decide)
  refine ⟨sub, hsub, hlhs, ?_, ?_, ?_⟩
  · rw [hget 2]; decide
  · rw [hget 0]; decide
  · rw [hget 1]; decide

/-! Claim C7 — `take_cloned_monomials`.  Supporting lemmas. -/

theorem sortPair_fst_le_snd (u v : Nat) : (sortPair u v).1 ≤ (sortPair u v).2 := by
  unfold sortPair
  split_ifs with h <;> simp <;> omega

theorem sortPair_eq_iff {u v x y : Nat} (hxy : x ≤ y) :
    sortPair u v = (x, y) ↔ (u = x ∧ v = y) ∨ (u = y ∧ v = x) := by
  unfold sortPair
  split_ifs with h <;> simp [Prod.ext_iff] <;> omega

theorem getV_setV {α β : Type} [DecidableEq α] (k t : α) (v : β) (l : List (α × β)) :
    getV t (setV k v l) = if k = t then some v else getV t l := by
  induction l with
  | nil => simp [setV, getV]
  | cons hd tl ih =>
    simp only [setV]
    by_cases h : hd.1 = k
    · simp only [if_pos h, getV]
      by_cases h2 : k = t
      · simp [h2]
      · rw [if_neg h2, if_neg h2, if_neg (fun hc => h2 (h.symm.trans hc))]
    · rw [if_neg h]
      simp only [getV]
      by_cases h2 : hd.1 = t
      · rw [if_pos h2, if_neg (fun hk => h (h2.trans hk.symm)), if_pos h2]
      · rw [if_neg h2, if_neg h2, ih]

theorem setV_keys {α β : Type} [DecidableEq α] (k : α) (v : β) (l : List (α × β)) :
    (setV k v l).map Prod.fst =
      if containsKey k l then l.map Prod.fst else l.map Prod.fst ++ [k] := by
  induction l with
  | nil => simp [setV, containsKey, getV]
  | cons hd tl ih =>
    simp only [setV, containsKey, getV]
    by_cases h : hd.1 = k
    · rw [if_pos h, if_pos (by simp [h])]
      simp [h]
    · rw [if_neg h]
      simp only [List.map_cons]
      rw [ih]
      simp only [containsKey]
      by_cases h2 : (getV k tl).isSome
      · rw [if_pos h2, if_pos (by simpa [h] using h2)]
      · rw [if_neg h2, if_neg (by simpa [h] using h2)]
        simp

theorem NodupKeys.setV {α β : Type} [DecidableEq α] {l : List (α × β)}
    (h : NodupKeys l) (k : α) (v : β) : NodupKeys (WitnessOptimizer.setV k v l) := by
  unfold NodupKeys
  rw [setV_keys]
  by_cases hc : containsKey k l
  · rw [if_pos hc]; exact h
  · rw [if_neg hc]
    rw [List.nodup_append]
    refine ⟨h, List.nodup_singleton _, ?_⟩
    intro x hx hxk
    simp only [List.mem_singleton] at hxk
    subst hxk
    have : getV x l = none :=
      (containsKey_eq_false_iff _ _).mp (Bool.eq_false_iff.mpr hc)
    exact ((getV_eq_none_iff _ _).mp this) hx

theorem mem_setV {α β : Type} [DecidableEq α] {x : α × β} {k : α} {v : β}
    {l : List (α × β)} (hx : x ∈ setV k v l) : x = (k, v) ∨ x ∈ l := by
  induction l with
  | nil => simpa [setV] using hx
  | cons hd tl ih =>
    simp only [setV] at hx
    by_cases h : hd.1 = k
    · rw [if_pos h] at hx
      rcases List.mem_cons.mp hx with h1 | h1
      · exact Or.inl h1
      · exact Or.inr (List.mem_cons_of_mem _ h1)
    · rw [if_neg h] at hx
      rcases List.mem_cons.mp hx with h1 | h1
      · exact Or.inr (h1 ▸ List.mem_cons_self _ _)
      · rcases ih h1 with h2 | h2
        · exact Or.inl h2
        · exact Or.inr (List.mem_cons_of_mem _ h2)

theorem getV_filter {α β : Type} [DecidableEq α] (pred : β → Bool)
    {l : List (α × β)} (h : NodupKeys l) (t : α) :
    getV t (l.filter (fun kv => pred kv.2)) =
      (getV t l).bind (fun v => if pred v then some v else none) := by
  induction l with
  | nil => rfl
  | cons hd tl ih =>
    have h' := h
    simp only [NodupKeys, List.map_cons, List.nodup_cons] at h'
    obtain ⟨h1, h2⟩ := h'
    rw [List.filter_cons]
    by_cases hp : pred hd.2
    · rw [if_pos (by simpa using hp)]
      simp only [getV]
      by_cases hk : hd.1 = t
      · rw [if_pos hk, if_pos hk]
        simp [hp]
      · rw [if_neg hk, if_neg hk]
        exact ih h2
    · rw [if_neg (by simpa using hp)]
      rw [ih h2]
      simp only [getV]
      by_cases hk : hd.1 = t
      · rw [if_pos hk]
        have hnone : getV t tl = none := (getV_eq_none_iff t tl).mpr (hk ▸ h1)
        rw [hnone]
        simp [hp]
      · rw [if_neg hk]

theorem take_cloned_monomials_eq_foldl (con : Constraint) (p : Int) :
    con.take_cloned_monomials p
      = ((monomialContributions con.a con.b p).foldl (insertAddMon p) []).filter
          (fun x => x.2 ≠ 0) := by
  have key : ∀ (a : RExpr) (init : List (Monomial × Int)),
      a.foldl (fun acc kva => con.b.foldl (fun acc kvb =>
          insertAddMon p acc (sortPair kva.1 kvb.1, modMul kva.2 kvb.2 p)) acc) init
        = (monomialContributions a con.b p).foldl (insertAddMon p) init := by
    intro a
    induction a with
    | nil => intro init; rfl
    | cons kva ta ih =>
      intro init
      rw [List.foldl_cons, monomialContributions, List.foldl_append, ih,
        List.foldl_map]
  simp only [Constraint.take_cloned_monomials]
  rw [key]

theorem emod_emod (a p : Int) : a % p % p = a % p :=
  Int.emod_emod_of_dvd a dvd_rfl

theorem add_emod_left (a b p : Int) : (a % p + b) % p = (a + b) % p := by
  rw [Int.add_emod, emod_emod, ← Int.add_emod]

theorem add_emod_right (a b p : Int) : (a + b % p) % p = (a + b) % p := by
  rw [Int.add_emod, emod_emod, ← Int.add_emod]

theorem accMod_eq_sum (p : Int) :
    ∀ (vs : List Int) (s : Int), s % p = s → accMod p s vs = (s + vs.sum) % p := by
  intro vs
  induction vs with
  | nil =>
    intro s hs
    simp only [accMod, List.sum_nil, add_zero]
    exact hs.symm
  | cons v vs ih =>
    intro s hs
    simp only [accMod]
    rw [ih ((v + s) % p) (emod_emod _ _), add_emod_left, List.sum_cons]
    congr 1
    ring

theorem getV_foldl_insertAddMon (p : Int) (contribs : List (Monomial × Int))
    (k : Monomial) :
    ∀ init : List (Monomial × Int),
      getV k (contribs.foldl (insertAddMon p) init)
        = slotAccum p (getV k init)
            ((contribs.filter (fun mv => mv.1 = k)).map Prod.snd) := by
  induction contribs with
  | nil =>
    intro init
    rw [List.foldl_nil]
    cases getV k init <;> rfl
  | cons mv rest ih =>
    intro init
    rw [List.foldl_cons, ih, List.filter_cons]
    by_cases hk : mv.1 = k
    · rw [if_pos (by simpa using hk)]
      simp only [List.map_cons]
      cases hg : getV k init with
      | some c =>
        have hstep : getV k (insertAddMon p init mv) = some (modAdd mv.2 c p) := by
          simp [insertAddMon, hk, hg, getV_setV]
        rw [hstep]
        simp only [slotAccum, accMod, modAdd]
      | none =>
        have hstep : getV k (insertAddMon p init mv) = some mv.2 := by
          simp [insertAddMon, hk, hg, getV_setV]
        rw [hstep]
        simp only [slotAccum]
    · rw [if_neg (by simpa using hk)]
      have hstep : getV k (insertAddMon p init mv) = getV k init := by
        unfold insertAddMon
        cases getV mv.1 init <;> rw [getV_setV, if_neg hk]
      rw [hstep]

theorem monomialContributions_key_sorted {a b : RExpr} {p : Int}
    {mv : Monomial × Int} (hmv : mv ∈ monomialContributions a b p) :
    mv.1.1 ≤ mv.1.2 := by
  induction a with
  | nil => simp [monomialContributions] at hmv
  | cons kva ta ih =>
    simp only [monomialContributions, List.mem_append] at hmv
    rcases hmv with h | h
    · obtain ⟨kvb, -, rfl⟩ := List.mem_map.mp h
      exact sortPair_fst_le_snd _ _
    · exact ih h

theorem monomialContributions_value_reduced {a b : RExpr} {p : Int}
    {mv : Monomial × Int} (hmv : mv ∈ monomialContributions a b p) :
    mv.2 % p = mv.2 := by
  induction a with
  | nil => simp [monomialContributions] at hmv
  | cons kva ta ih =>
    simp only [monomialContributions, List.mem_append] at hmv
    rcases hmv with h | h
    · obtain ⟨kvb, -, rfl⟩ := List.mem_map.mp h
      exact emod_emod _ _
    · exact ih h

theorem foldl_insertAddMon_nodup (p : Int) (contribs : List (Monomial × Int)) :
    ∀ init : List (Monomial × Int), NodupKeys init →
      NodupKeys (contribs.foldl (insertAddMon p) init) := by
  induction contribs with
  | nil => intro init h; exact h
  | cons mv rest ih =>
    intro init h
    rw [List.foldl_cons]
    refine ih _ ?_
    unfold insertAddMon
    cases hgv : getV mv.1 init with
    | some coef => exact h.setV mv.1 (modAdd mv.2 coef p)
    | none => exact h.setV mv.1 mv.2

theorem foldl_insertAddMon_mem_sorted (p : Int) (contribs : List (Monomial × Int))
    (hc : ∀ mv ∈ contribs, mv.1.1 ≤ mv.1.2) :
    ∀ init : List (Monomial × Int), (∀ mv ∈ init, mv.1.1 ≤ mv.1.2) →
      ∀ mv ∈ contribs.foldl (insertAddMon p) init, mv.1.1 ≤ mv.1.2 := by
  induction contribs with
  | nil => intro init h; exact h
  | cons c rest ih =>
    intro init h
    rw [List.foldl_cons]
    refine ih (fun mv hmv => hc mv (List.mem_cons_of_mem _ hmv)) _ ?_
    intro mv hmv
    have hcs : c.1.1 ≤ c.1.2 := hc c (List.mem_cons_self _ _)
    unfold insertAddMon at hmv
    cases hgv : getV c.1 init with
    | some w =>
      rw [hgv] at hmv
      rcases mem_setV hmv with h1 | h1
      · rw [h1]; exact hcs
      · exact h mv h1
    | none =>
      rw [hgv] at hmv
      rcases mem_setV hmv with h1 | h1
      · rw [h1]; exact hcs
      · exact h mv h1

theorem inner_filter_single {k : Monomial} {sa t : Nat} (ca : Int) (p : Int)
    (hsel : ∀ sb : Nat, (sortPair sa sb = k) ↔ sb = t)
    {b : RExpr} (hb : NodupKeys b) :
    ((b.map (fun kvb => (sortPair sa kvb.1, modMul ca kvb.2 p))).filter
        (fun mv => mv.1 = k)).map Prod.snd
      = match getV t b with
        | some cb => [modMul ca cb p]
        | none => [] := by
  induction b with
  | nil => rfl
  | cons hd tl ih =>
    have h' := hb
    simp only [NodupKeys, List.map_cons, List.nodup_cons] at h'
    obtain ⟨h1, h2⟩ := h'
    simp only [List.map_cons, List.filter_cons]
    by_cases hsb : hd.1 = t
    · rw [if_pos (by simpa using (hsel hd.1).mpr hsb)]
      simp only [List.map_cons]
      have htl : getV t tl = none := (getV_eq_none_iff t tl).mpr (hsb ▸ h1)
      rw [ih h2, htl]
      simp only [getV, if_pos hsb]
    · rw [if_neg (by simpa using fun hc => hsb ((hsel hd.1).mp hc))]
      rw [ih h2]
      simp only [getV, if_neg hsb]

theorem inner_filter_empty {k : Monomial} {sa : Nat} (ca : Int) (p : Int)
    (hsel : ∀ sb : Nat, sortPair sa sb ≠ k) (b : RExpr) :
    ((b.map (fun kvb => (sortPair sa kvb.1, modMul ca kvb.2 p))).filter
        (fun mv => mv.1 = k)).map Prod.snd = [] := by
  induction b with
  | nil => rfl
  | cons hd tl ih =>
    simp only [List.map_cons, List.filter_cons]
    rw [if_neg (by simpa using hsel hd.1)]
    exact ih

theorem contributions_sum_offdiag {x y : Nat} (hxy : x < y) (p : Int) {b : RExpr}
    (hb : NodupKeys b) :
    ∀ a : RExpr, NodupKeys a →
      ((((monomialContributions a b p).filter (fun mv => mv.1 = (x, y))).map
          Prod.snd).sum) % p
        = (((getV x a).getD 0 * (getV y b).getD 0) % p
            + ((getV y a).getD 0 * (getV x b).getD 0) % p) % p := by
  intro a
  induction a with
  | nil =>
    intro _
    simp [monomialContributions, getV]
  | cons kva ta ih =>
    intro ha
    have h' := ha
    simp only [NodupKeys, List.map_cons, List.nodup_cons] at h'
    obtain ⟨h1, h2⟩ := h'
    simp only [monomialContributions, List.filter_append, List.map_append,
      List.sum_append]
    conv_lhs => rw [Int.add_emod]
    rw [ih h2]
    by_cases hx : kva.1 = x
    · have hsel : ∀ sb, (sortPair kva.1 sb = (x, y)) ↔ sb = y := by
        intro sb
        rw [hx, sortPair_eq_iff (le_of_lt hxy)]
        omega
      rw [inner_filter_single kva.2 p hsel hb]
      have hgxta : getV x ta = none := (getV_eq_none_iff _ _).mpr (hx ▸ h1)
      have hgx : getV x (kva :: ta) = some kva.2 := by
        simp [getV, hx]
      have hgy : getV y (kva :: ta) = getV y ta := by
        simp [getV, show kva.1 ≠ y by omega]
      rw [hgx, hgy, hgxta]
      cases hgyb : getV y b with
      | some cb =>
        simp only [Option.getD_some, Option.getD_none, List.sum_cons, List.sum_nil,
          List.map_nil, modMul, add_zero, zero_add, zero_mul, mul_zero,
          Int.zero_emod, emod_emod, add_emod_left, add_emod_right]
      | none =>
        simp only [Option.getD_some, Option.getD_none, List.sum_nil, List.sum_cons,
          List.map_nil, add_zero, mul_zero, zero_mul, Int.zero_emod, zero_add,
          emod_emod, add_emod_left, add_emod_right]
    · by_cases hy : kva.1 = y
      · have hsel : ∀ sb, (sortPair kva.1 sb = (x, y)) ↔ sb = x := by
          intro sb
          rw [hy, sortPair_eq_iff (le_of_lt hxy)]
          omega
        rw [inner_filter_single kva.2 p hsel hb]
        have hgyta : getV y ta = none := (getV_eq_none_iff _ _).mpr (hy ▸ h1)
        have hgy : getV y (kva :: ta) = some kva.2 := by
          simp [getV, hy]
        have hgx : getV x (kva :: ta) = getV x ta := by
          simp [getV, hx]
        rw [hgx, hgy, hgyta]
        cases hgxb : getV x b with
        | some cb =>
          simp only [Option.getD_some, Option.getD_none, List.sum_cons, List.sum_nil,
            List.map_nil, modMul, add_zero, zero_add, zero_mul, mul_zero,
            Int.zero_emod, emod_emod, add_emod_left, add_emod_right]
          congr 1
          ring
        | none =>
          simp only [Option.getD_some, Option.getD_none, List.sum_nil, List.sum_cons,
            List.map_nil, add_zero, mul_zero, zero_mul, Int.zero_emod, zero_add,
            emod_emod, add_emod_left, add_emod_right]
      · have hsel : ∀ sb, sortPair kva.1 sb ≠ (x, y) := by
          intro sb hc
          rw [sortPair_eq_iff (le_of_lt hxy)] at hc
          omega
        rw [inner_filter_empty kva.2 p hsel b]
        have hgx : getV x (kva :: ta) = getV x ta := by simp [getV, hx]
        have hgy : getV y (kva :: ta) = getV y ta := by simp [getV, hy]
        rw [hgx, hgy]
        simp only [List.map_nil, List.sum_nil, Int.zero_emod, zero_add, emod_emod]

theorem contributions_sum_diag (x : Nat) (p : Int) {b : RExpr} (hb : NodupKeys b) :
    ∀ a : RExpr, NodupKeys a →
      ((((monomialContributions a b p).filter (fun mv => mv.1 = (x, x))).map
          Prod.snd).sum) % p
        = ((getV x a).getD 0 * (getV x b).getD 0) % p := by
  intro a
  induction a with
  | nil =>
    intro _
    simp [monomialContributions, getV]
  | cons kva ta ih =>
    intro ha
    have h' := ha
    simp only [NodupKeys, List.map_cons, List.nodup_cons] at h'
    obtain ⟨h1, h2⟩ := h'
    simp only [monomialContributions, List.filter_append, List.map_append,
      List.sum_append]
    conv_lhs => rw [Int.add_emod]
    rw [ih h2]
    by_cases hx : kva.1 = x
    · have hsel : ∀ sb, (sortPair kva.1 sb = (x, x)) ↔ sb = x := by
        intro sb
        rw [hx, sortPair_eq_iff (le_refl x)]
        omega
      rw [inner_filter_single kva.2 p hsel hb]
      have hgxta : getV x ta = none := (getV_eq_none_iff _ _).mpr (hx ▸ h1)
      have hgx : getV x (kva :: ta) = some kva.2 := by simp [getV, hx]
      rw [hgx, hgxta]
      cases hgxb : getV x b with
      | some cb =>
        simp only [Option.getD_some, Option.getD_none, List.sum_cons, List.sum_nil,
          List.map_nil, modMul, add_zero, zero_add, zero_mul, mul_zero,
          Int.zero_emod, emod_emod, add_emod_left, add_emod_right]
      | none =>
        simp only [Option.getD_some, Option.getD_none, List.sum_cons, List.sum_nil,
          List.map_nil, modMul, add_zero, zero_add, zero_mul, mul_zero,
          Int.zero_emod, emod_emod, add_emod_left, add_emod_right]
    · have hsel : ∀ sb, sortPair kva.1 sb ≠ (x, x) := by
        intro sb hc
        rw [sortPair_eq_iff (le_refl x)] at hc
        omega
      rw [inner_filter_empty kva.2 p hsel b]
      have hgx : getV x (kva :: ta) = getV x ta := by simp [getV, hx]
      rw [hgx]
      simp only [List.map_nil, List.sum_nil, Int.zero_emod, zero_add, emod_emod]

/-- Claim C7 counterexample: for the constraint `a = {x₁: 1}`,
`b = {x₁: 1}` over `p = 257`, the code emits the diagonal monomial
`(1, 1)` with coefficient `1` (the single product `a[1]·b[1]`), while
the claim's summed formula `a[sa]·b[sb] + a[sb]·b[sa]` gives `2`. -/
theorem take_cloned_monomials_double_counts_diagonal :
    Constraint.take_cloned_monomials ⟨[(1, 1)], [(1, 1)], []⟩ 257 = [((1, 1), 1)] ∧
    claimed_monomial_coefficient ⟨[(1, 1)], [(1, 1)], []⟩ 1 1 257 = 2 := by
  constructor <;> rfl

/-- Claim C7 (amended): `take_cloned_monomials` returns exactly the
sorted pairs `(min(sa,sb), max(sa,sb))` with `sa ∈ keys(a)` and
`sb ∈ keys(b)`; the coefficient of a pair with `sa ≠ sb` is the
claimed sum `a[sa]·b[sb] + a[sb]·b[sa]` (missing keys contributing 0),
but the coefficient of a diagonal pair `(s, s)` is the single product
`a[s]·b[s]`; pairs whose coefficient is 0 modulo the field are
omitted, no unsorted pair ever appears, and no pair appears twice. -/
theorem take_cloned_monomials_characterization (con : Constraint) (p : Int)
    (ha : NodupKeys con.a) (hb : NodupKeys con.b) :
    (∀ x y : Nat, x ≤ y →
      getV ((x, y) : Monomial) (con.take_cloned_monomials p)
        = if amended_monomial_value con x y p = 0 then none
          else some (amended_monomial_value con x y p)) ∧
    (∀ x y : Nat, y < x →
      getV ((x, y) : Monomial) (con.take_cloned_monomials p) = none) ∧
    NodupKeys (con.take_cloned_monomials p) := by
  have hcsorted : ∀ mv ∈ monomialContributions con.a con.b p, mv.1.1 ≤ mv.1.2 :=
    fun mv hmv => monomialContributions_key_sorted hmv
  have hfoldnodup : NodupKeys
      ((monomialContributions con.a con.b p).foldl (insertAddMon p) []) :=
    foldl_insertAddMon_nodup p _ [] (by simp [NodupKeys])
  have hfoldsorted : ∀ mv ∈
      (monomialContributions con.a con.b p).foldl (insertAddMon p) [],
      mv.1.1 ≤ mv.1.2 :=
    foldl_insertAddMon_mem_sorted p _ hcsorted [] (by simp)
  have hres := take_cloned_monomials_eq_foldl con p
  refine ⟨?_, ?_, ?_⟩
  · intro x y hxy
    have hsum : ((((monomialContributions con.a con.b p).filter
          (fun mv => mv.1 = ((x, y) : Monomial))).map Prod.snd).sum) % p
        = amended_monomial_value con x y p := by
      rcases eq_or_lt_of_le hxy with rfl | hlt
      · rw [contributions_sum_diag x p hb con.a ha]
        simp [amended_monomial_value, modMul]
      · rw [contributions_sum_offdiag hlt p hb con.a ha]
        simp only [amended_monomial_value, if_neg (by omega : ¬x = y),
          claimed_monomial_coefficient, modAdd, modMul]
    rw [hres, getV_filter (fun v => decide (v ≠ 0)) hfoldnodup,
      getV_foldl_insertAddMon]
    simp only [getV]
    cases hvals : ((monomialContributions con.a con.b p).filter
        (fun mv => mv.1 = ((x, y) : Monomial))).map Prod.snd with
    | nil =>
      have hzero : amended_monomial_value con x y p = 0 := by
        rw [← hsum, hvals]
        simp
      rw [hzero]
      simp [slotAccum]
    | cons v vs =>
      have hvred : v % p = v := by
        have hv : v ∈ ((monomialContributions con.a con.b p).filter
            (fun mv => mv.1 = ((x, y) : Monomial))).map Prod.snd := by
          rw [hvals]; exact List.mem_cons_self _ _
        obtain ⟨mv, hmv, rfl⟩ := List.mem_map.mp hv
        exact monomialContributions_value_reduced (List.mem_of_mem_filter hmv)
      have hacc : accMod p v vs = amended_monomial_value con x y p := by
        rw [accMod_eq_sum p vs v hvred, ← List.sum_cons, ← hvals, hsum]
      simp only [slotAccum, hacc, Option.some_bind]
      by_cases hz : amended_monomial_value con x y p = 0
      · simp [hz]
      · simp [hz]
  · intro x y hyx
    rw [hres, getV_eq_none_iff]
    intro hmem
    obtain ⟨mv, hmv, hfst⟩ := List.mem_map.mp hmem
    have hmv2 := hfoldsorted mv (List.mem_of_mem_filter hmv)
    rw [hfst] at hmv2
    omega
  · rw [hres]
    unfold NodupKeys
    exact ((List.filter_sublist _).map Prod.fst).nodup hfoldnodup

/-- Witness for C7's amended theorem at a concrete input. -/
theorem take_cloned_monomials_characterization_witness :
    NodupKeys ([(1, 1)] : RExpr) ∧
    getV ((1, 1) : Monomial)
        (Constraint.take_cloned_monomials ⟨[(1, 1)], [(1, 1)], []⟩ 257) = some 1 ∧
    amended_monomial_value ⟨[(1, 1)], [(1, 1)], []⟩ 1 1 257 = 1 := by
  have h := take_cloned_monomials_characterization ⟨[(1, 1)], [(1, 1)], []⟩ 257
    (by decide) (by decide)
  refine ⟨by decide, ?_, by decide⟩
  rw [h.1 1 1 (le_refl 1)]
  decide

/-! Claim C8 — zero-elimination cascade: supporting lemmas. -/

theorem getV_mem {α β : Type} [DecidableEq α] {k : α} {v : β} :
    ∀ {l : List (α × β)}, getV k l = some v → (k, v) ∈ l := by
  intro l
  induction l with
  | nil => intro h; cases h
  | cons hd tl ih =>
    intro h
    simp only [getV] at h
    by_cases hk : hd.1 = k
    · rw [if_pos hk] at h
      cases h
      have heq : (k, hd.2) = hd := by rw [← hk]
      rw [heq]
      exact List.mem_cons_self _ _
    · rw [if_neg hk] at h
      exact List.mem_cons_of_mem _ (ih h)

theorem mem_getV {α β : Type} [DecidableEq α] {l : List (α × β)}
    (hnd : NodupKeys l) {k : α} {v : β} (h : (k, v) ∈ l) : getV k l = some v := by
  induction l with
  | nil => cases h
  | cons hd tl ih =>
    have h' := hnd
    simp only [NodupKeys, List.map_cons, List.nodup_cons] at h'
    obtain ⟨h1, h2⟩ := h'
    rcases List.mem_cons.mp h with rfl | hmem
    · simp [getV]
    · have hk : hd.1 ≠ k := by
        intro hc
        exact h1 (hc ▸ (List.mem_map_of_mem Prod.fst hmem))
      simp only [getV, if_neg hk]
      exact ih h2 hmem

theorem findPos_eq_none_iff (c : Nat) (l : List Nat) :
    findPos c l = none ↔ c ∉ l := by
  induction l with
  | nil => simp [findPos]
  | cons x t ih =>
    simp only [findPos, List.mem_cons]
    by_cases hx : x = c
    · simp [hx]
    · simp only [if_neg hx, Option.map_eq_none']
      rw [ih]
      constructor
      · intro hn hc
        rcases hc with rfl | hc
        · exact hx rfl
        · exact hn hc
      · intro hn hc
        exact hn (Or.inr hc)

theorem findPos_spec {c : Nat} : ∀ {l : List Nat} {i : Nat},
    findPos c l = some i → ∃ hlt : i < l.length, l.get ⟨i, hlt⟩ = c := by
  intro l
  induction l with
  | nil => intro i h; cases h
  | cons x t ih =>
    intro i h
    simp only [findPos] at h
    by_cases hx : x = c
    · rw [if_pos hx] at h
      cases h
      exact ⟨by simp, hx⟩
    · rw [if_neg hx] at h
      rcases Option.map_eq_some'.mp h with ⟨j, hj, rfl⟩
      obtain ⟨hlt, hget⟩ := ih hj
      exact ⟨by simpa using Nat.succ_lt_succ hlt, hget⟩

theorem set_perm_eraseIdx_concat :
    ∀ (xs : List Nat) (i : Nat) (a : Nat), i < xs.length →
      (xs.set i a).Perm (xs.eraseIdx i ++ [a]) := by
  intro xs
  induction xs with
  | nil => intro i a h; simp at h
  | cons x t ih =>
    intro i a h
    cases i with
    | zero =>
      simp only [List.set_cons_zero, List.eraseIdx_cons_zero]
      exact (List.perm_append_singleton a t).symm
    | succ i =>
      simp only [List.set_cons_succ, List.eraseIdx_cons_succ, List.cons_append]
      exact (ih i a (by simpa using h)).cons x

theorem swapRemove_perm {l : List Nat} {i : Nat} (hi : i < l.length) :
    (swapRemove l i).Perm (l.eraseIdx i) := by
  rcases List.eq_nil_or_concat l with rfl | ⟨xs, last, rfl⟩
  · simp at hi
  · rw [List.concat_eq_append] at hi ⊢
    have hsw : swapRemove (xs ++ [last]) i = ((xs ++ [last]).set i last).dropLast := by
      unfold swapRemove
      rw [List.getLast?_concat]
    rw [hsw]
    simp only [List.length_append, List.length_singleton] at hi
    by_cases hix : i < xs.length
    · rw [List.set_append_left _ _ hix, List.dropLast_concat,
        List.eraseIdx_append_of_lt_length hix]
      exact set_perm_eraseIdx_concat xs i last hix
    · have hieq : i = xs.length := by omega
      subst hieq
      rw [List.set_append_right _ _ (le_refl _),
        List.eraseIdx_append_of_length_le (le_refl _)]
      simp only [Nat.sub_self, List.set_cons_zero, List.dropLast_concat,
        List.eraseIdx_cons_zero, List.append_nil]
      exact List.Perm.refl xs

theorem removeCid_perm_erase {c : Nat} {l : List Nat} (hnd : l.Nodup) :
    (removeCid c l).Perm (l.erase c) := by
  unfold removeCid
  cases hfp : findPos c l with
  | none =>
    rw [List.erase_of_not_mem ((findPos_eq_none_iff c l).mp hfp)]
  | some i =>
    obtain ⟨hlt, hget⟩ := findPos_spec hfp
    have herase : l.erase c = l.eraseIdx i := by
      have := hnd.erase_getElem i hlt
      rw [← this]
      congr 1
      exact hget.symm
    rw [herase]
    exact swapRemove_perm hlt

theorem not_mem_removeCid {c : Nat} {l : List Nat} (hnd : l.Nodup) :
    c ∉ removeCid c l := by
  intro hmem
  have h2 := (removeCid_perm_erase hnd).mem_iff.mp hmem
  exact ((hnd.mem_erase_iff).mp h2).1 rfl

theorem removeCid_subset {c : Nat} {l : List Nat} (hnd : l.Nodup) :
    removeCid c l ⊆ l := by
  intro x hx
  exact (List.erase_sublist c l).subset ((removeCid_perm_erase hnd).mem_iff.mp hx)

theorem removeCid_nodup {c : Nat} {l : List Nat} (hnd : l.Nodup) :
    (removeCid c l).Nodup :=
  ((removeCid_perm_erase hnd).nodup_iff).mpr ((List.erase_sublist c l).nodup hnd)

theorem getV_removeFromMonomialLists (c : Nat) :
    ∀ {monos : List Monomial}, monos.Nodup →
      ∀ (mmc : List (Monomial × List Nat)) (m : Monomial),
        getV m (removeFromMonomialLists c monos mmc)
          = if m ∈ monos then (getV m mmc).map (removeCid c) else getV m mmc := by
  intro monos
  induction monos with
  | nil =>
    intro _ mmc m
    simp [removeFromMonomialLists]
  | cons mon rest ih =>
    intro hnd mmc m
    have h' := hnd
    rw [List.nodup_cons] at h'
    obtain ⟨h1, h2⟩ := h'
    have hstep : removeFromMonomialLists c (mon :: rest) mmc
        = removeFromMonomialLists c rest
            (match getV mon mmc with
             | some listMon => setV mon (removeCid c listMon) mmc
             | none => mmc) := by
      simp [removeFromMonomialLists]
    rw [hstep, ih h2]
    by_cases hm : m = mon
    · subst hm
      rw [if_neg h1, if_pos (List.mem_cons_self _ _)]
      cases hg : getV m mmc with
      | some listMon => simp [hg, getV_setV]
      | none => simp [hg]
    · by_cases hmr : m ∈ rest
      · rw [if_pos hmr, if_pos (List.mem_cons_of_mem _ hmr)]
        cases hg : getV mon mmc with
        | some listMon =>
          rw [getV_setV, if_neg (fun hc => hm hc.symm)]
        | none => rfl
      · rw [if_neg hmr, if_neg (by simp [hm, hmr])]
        cases hg : getV mon mmc with
        | some listMon =>
          rw [getV_setV, if_neg (fun hc => hm hc.symm)]
        | none => rfl

theorem nodupKeys_removeFromMonomialLists (c : Nat) (monos : List Monomial) :
    ∀ {mmc : List (Monomial × List Nat)}, NodupKeys mmc →
      NodupKeys (removeFromMonomialLists c monos mmc) := by
  induction monos with
  | nil => intro mmc h; exact h
  | cons mon rest ih =>
    intro mmc h
    have hstep : removeFromMonomialLists c (mon :: rest) mmc
        = removeFromMonomialLists c rest
            (match getV mon mmc with
             | some listMon => setV mon (removeCid c listMon) mmc
             | none => mmc) := by
      simp [removeFromMonomialLists]
    rw [hstep]
    refine ih ?_
    cases getV mon mmc with
    | some listMon => exact h.setV mon (removeCid c listMon)
    | none => exact h

theorem mem_cidSet {st : ZeroState} {c : Nat} :
    c ∈ cidSet st ↔ ∃ e ∈ st.mmc, c ∈ e.2 := by
  unfold cidSet
  induction st.mmc with
  | nil => simp
  | cons e t ih =>
    simp only [List.foldr_cons, Finset.mem_union, List.mem_toFinset, ih,
      List.mem_cons]
    constructor
    · rintro (h | ⟨e', he', hc⟩)
      · exact ⟨e, Or.inl rfl, h⟩
      · exact ⟨e', Or.inr he', hc⟩
    · rintro ⟨e', (rfl | he'), hc⟩
      · exact Or.inl hc
      · exact Or.inr ⟨e', he', hc⟩

theorem mem_cidSet_getV {st : ZeroState} (hnd : NodupKeys st.mmc) {c : Nat} :
    c ∈ cidSet st ↔ ∃ mon l, getV mon st.mmc = some l ∧ c ∈ l := by
  rw [mem_cidSet]
  constructor
  · rintro ⟨e, he, hc⟩
    exact ⟨e.1, e.2, mem_getV hnd he, hc⟩
  · rintro ⟨mon, l, hget, hc⟩
    exact ⟨(mon, l), getV_mem hget, hc⟩

theorem Shrunk.refl (st : ZeroState) : Shrunk st st :=
  ⟨fun _ => rfl, fun _ _ _ h1 h2 => by rw [h1] at h2; cases h2; exact fun _ h => h⟩

theorem Shrunk.trans {s1 s2 s3 : ZeroState} (h12 : Shrunk s1 s2)
    (h23 : Shrunk s2 s3) : Shrunk s1 s3 := by
  refine ⟨fun mon => (h23.1 mon).trans (h12.1 mon), ?_⟩
  intro mon l l' h1 h3
  have hs : (getV mon s2.mmc).isSome = true := by
    rw [h12.1 mon, h1]
    rfl
  obtain ⟨l2, h2⟩ := Option.isSome_iff_exists.mp hs
  exact (h23.2 mon l2 l' h2 h3).trans (h12.2 mon l l2 h1 h2)

theorem cidSet_mono {st st' : ZeroState} (h : Shrunk st st')
    (h1 : NodupKeys st.mmc) (h1' : NodupKeys st'.mmc) :
    cidSet st' ⊆ cidSet st := by
  intro c hc
  obtain ⟨mon, l', hget', hcl⟩ := (mem_cidSet_getV h1').mp hc
  have hs : (getV mon st.mmc).isSome = true := by
    rw [← h.1 mon, hget']
    rfl
  obtain ⟨l, hget⟩ := Option.isSome_iff_exists.mp hs
  exact (mem_cidSet_getV h1).mpr ⟨mon, l, hget, h.2 mon l l' hget hget' hcl⟩

theorem badMon_congr (storage : List Constraint) (p : Int) {st st' : ZeroState}
    {m : Monomial} (h : getV m st'.mmc = getV m st.mmc) :
    badMon storage p st' m ↔ badMon storage p st m := by
  unfold badMon
  rw [h]

/-- The heart of claim C8: with fuel exceeding the number of live
constraint ids, `compute_zero_constraints_monomial` terminates,
preserves the index invariants, only shrinks constraint lists, leaves
its own monomial non-singular, and leaves no monomial it touched in
the singular non-zero state. -/
theorem compute_zero_constraints_monomial_spec (storage : List Constraint) (p : Int) :
    ∀ fuel : Nat, ∀ (mon : Monomial) (st : ZeroState), ZInv st →
      (cidSet st).card < fuel →
      ∃ st', compute_zero_constraints_monomial storage p fuel mon st = some st' ∧
        ZInv st' ∧ Shrunk st st' ∧ ¬ badMon storage p st' mon ∧
        (∀ m, getV m st'.mmc ≠ getV m st.mmc → ¬ badMon storage p st' m) := by
  intro fuel
  induction fuel with
  | zero =>
    intro mon st _ hcard
    exact absurd hcard (Nat.not_lt_zero _)
  | succ n ihP =>
    have hC : ∀ (ms : List Monomial) (st : ZeroState), ZInv st →
        (cidSet st).card < n →
        ∃ st', cascade_monomials storage p n ms st = some st' ∧
          ZInv st' ∧ Shrunk st st' ∧
          (∀ m ∈ ms, ¬ badMon storage p st' m) ∧
          (∀ m, getV m st'.mmc ≠ getV m st.mmc → ¬ badMon storage p st' m) := by
      intro ms
      induction ms with
      | nil =>
        intro st hinv hcard
        exact ⟨st, by simp [cascade_monomials], hinv, Shrunk.refl st, by simp,
          fun m hm => absurd rfl hm⟩
      | cons mon ms ihms =>
        intro st hinv hcard
        obtain ⟨st1, hrun1, hinv1, hshr1, hbad1, hchg1⟩ := ihP mon st hinv hcard
        have hcard1 : (cidSet st1).card < n :=
          lt_of_le_of_lt (Finset.card_le_card (cidSet_mono hshr1 hinv.1 hinv1.1))
            hcard
        obtain ⟨st', hrun2, hinv', hshr2, hms', hchg2⟩ := ihms st1 hinv1 hcard1
        refine ⟨st', ?_, hinv', hshr1.trans hshr2, ?_, ?_⟩
        · simp only [cascade_monomials, hrun1, hrun2]
        · intro m hm
          rcases List.mem_cons.mp hm with rfl | hmem
          · by_cases hch : getV m st'.mmc = getV m st1.mmc
            · exact fun hb => hbad1 ((badMon_congr storage p hch).mp hb)
            · exact hchg2 m hch
          · exact hms' m hmem
        · intro m hchange
          by_cases hch : getV m st'.mmc = getV m st1.mmc
          · have hch1 : getV m st1.mmc ≠ getV m st.mmc := by
              intro he
              exact hchange (hch.trans he)
            exact fun hb => hchg1 m hch1 ((badMon_congr storage p hch).mp hb)
          · exact hchg2 m hch
    have hR : ∀ (c : Nat) (st : ZeroState), ZInv st → (cidSet st).card ≤ n →
        c ∈ cidSet st →
        ∃ st', remove_zero_constraint storage p n c st = some st' ∧
          ZInv st' ∧ Shrunk st st' ∧
          (∀ m l', getV m st'.mmc = some l' → c ∉ l') ∧
          (∀ m, getV m st'.mmc ≠ getV m st.mmc → ¬ badMon storage p st' m) := by
      intro c st hinv hcard hcmem
      obtain ⟨hKmmc, hKmcm, hLmmc, hLmcm, hcoh⟩ := hinv
      cases hmcm : getV c st.mcm with
      | none =>
        obtain ⟨mon0, l0, hg0, hc0⟩ := (mem_cidSet_getV hKmmc).mp hcmem
        obtain ⟨monos0, hm0, -⟩ := hcoh mon0 l0 c hg0 hc0
        rw [hmcm] at hm0
        cases hm0
      | some monos =>
        have hmonosnd : monos.Nodup := hLmcm c monos hmcm
        have hget1 : ∀ m, getV m (removeFromMonomialLists c monos st.mmc)
            = if m ∈ monos then (getV m st.mmc).map (removeCid c)
              else getV m st.mmc :=
          fun m => getV_removeFromMonomialLists c hmonosnd st.mmc m
        have hK1 : NodupKeys (removeFromMonomialLists c monos st.mmc) :=
          nodupKeys_removeFromMonomialLists c monos hKmmc
        have hshr01 : Shrunk st ⟨st.mcm, removeFromMonomialLists c monos st.mmc⟩ := by
          constructor
          · intro m
            show (getV m (removeFromMonomialLists c monos st.mmc)).isSome = _
            rw [hget1 m]
            split_ifs with h
            · cases getV m st.mmc <;> rfl
            · rfl
          · intro m l l' hg hg'
            show l' ⊆ l
            rw [show getV m (⟨st.mcm, removeFromMonomialLists c monos st.mmc⟩ :
                ZeroState).mmc = getV m (removeFromMonomialLists c monos st.mmc)
              from rfl, hget1 m] at hg'
            split_ifs at hg' with h
            · rw [hg, Option.map_some'] at hg'
              cases hg'
              exact removeCid_subset (hLmmc m l hg)
            · rw [hg] at hg'
              cases hg'
              exact fun x hx => hx
        have hnd1 : ∀ m lst,
            getV m (removeFromMonomialLists c monos st.mmc) = some lst →
            lst.Nodup := by
          intro m lst hg
          rw [hget1 m] at hg
          split_ifs at hg with h
          · cases hgs : getV m st.mmc with
            | none => rw [hgs] at hg; cases hg
            | some l0 =>
              rw [hgs, Option.map_some'] at hg
              cases hg
              exact removeCid_nodup (hLmmc m l0 hgs)
          · exact hLmmc m lst hg
        have hgone1 : ∀ m l',
            getV m (removeFromMonomialLists c monos st.mmc) = some l' →
            c ∉ l' := by
          intro m l' hg hcl
          rw [hget1 m] at hg
          split_ifs at hg with h
          · cases hgs : getV m st.mmc with
            | none => rw [hgs] at hg; cases hg
            | some l0 =>
              rw [hgs, Option.map_some'] at hg
              cases hg
              exact not_mem_removeCid (hLmmc m l0 hgs) hcl
          · obtain ⟨monos0, hm0, hmem0⟩ := hcoh m l' c hg hcl
            rw [hmcm] at hm0
            cases hm0
            exact h hmem0
        have hcoh1 : ∀ m lst c',
            getV m (removeFromMonomialLists c monos st.mmc) = some lst →
            c' ∈ lst → ∃ monos', getV c' st.mcm = some monos' ∧ m ∈ monos' := by
          intro m lst c' hg hcl
          rw [hget1 m] at hg
          split_ifs at hg with h
          · cases hgs : getV m st.mmc with
            | none => rw [hgs] at hg; cases hg
            | some l0 =>
              rw [hgs, Option.map_some'] at hg
              cases hg
              exact hcoh m l0 c' hgs (removeCid_subset (hLmmc m l0 hgs) hcl)
          · exact hcoh m lst c' hg hcl
        have hinv1 : ZInv ⟨st.mcm, removeFromMonomialLists c monos st.mmc⟩ :=
          ⟨hK1, hKmcm, hnd1, hLmcm, hcoh1⟩
        have hsub1 : cidSet ⟨st.mcm, removeFromMonomialLists c monos st.mmc⟩
            ⊆ (cidSet st).erase c := by
          intro x hx
          rw [Finset.mem_erase]
          refine ⟨?_, cidSet_mono hshr01 hKmmc hK1 hx⟩
          rintro rfl
          obtain ⟨m, l, hgl, hcl⟩ := (mem_cidSet_getV hK1).mp hx
          exact hgone1 m l hgl hcl
        have hcard1 :
            (cidSet ⟨st.mcm, removeFromMonomialLists c monos st.mmc⟩).card < n := by
          have h1 := Finset.card_le_card hsub1
          have h2 : ((cidSet st).erase c).card = (cidSet st).card - 1 :=
            Finset.card_erase_of_mem hcmem
          have h3 : 1 ≤ (cidSet st).card := Finset.card_pos.mpr ⟨c, hcmem⟩
          omega
        obtain ⟨st2, hrun2, hinv2, hshr12, hmonos2, hchg12⟩ :=
          hC monos ⟨st.mcm, removeFromMonomialLists c monos st.mmc⟩ hinv1 hcard1
        have hgone2 : ∀ m l', getV m st2.mmc = some l' → c ∉ l' := by
          intro m l' hg' hcmem'
          have hs : (getV m (removeFromMonomialLists c monos st.mmc)).isSome
              = true := by
            rw [show getV m (removeFromMonomialLists c monos st.mmc)
                = getV m ((⟨st.mcm, removeFromMonomialLists c monos st.mmc⟩ :
                    ZeroState)).mmc from rfl, ← hshr12.1 m, hg']
            rfl
          obtain ⟨l1, hg1⟩ := Option.isSome_iff_exists.mp hs
          exact hgone1 m l1 hg1 (hshr12.2 m l1 l' hg1 hg' hcmem')
        refine ⟨⟨eraseV c st2.mcm, st2.mmc⟩, ?_, ?_, ?_, ?_, ?_⟩
        · simp only [remove_zero_constraint, hmcm, hrun2, Option.map_some']
        · obtain ⟨hK2mmc, hK2mcm, hL2mmc, hL2mcm, hcoh2⟩ := hinv2
          refine ⟨hK2mmc, hK2mcm.eraseV c, hL2mmc, ?_, ?_⟩
          · intro c' monos' hg'
            by_cases hcc : c' = c
            · subst hcc
              rw [show getV c' ((⟨eraseV c' st2.mcm, st2.mmc⟩ : ZeroState)).mcm
                  = getV c' (eraseV c' st2.mcm) from rfl,
                getV_eraseV_self hK2mcm] at hg'
              cases hg'
            · rw [show getV c' ((⟨eraseV c st2.mcm, st2.mmc⟩ : ZeroState)).mcm
                  = getV c' (eraseV c st2.mcm) from rfl,
                getV_eraseV_ne hcc] at hg'
              exact hL2mcm c' monos' hg'
          · intro m lst c' hg hcl
            have hcc : c' ≠ c := fun hceq => (hgone2 m lst hg) (hceq ▸ hcl)
            obtain ⟨monos', hg', hm'⟩ := hcoh2 m lst c' hg hcl
            refine ⟨monos', ?_, hm'⟩
            show getV c' (eraseV c st2.mcm) = some monos'
            rw [getV_eraseV_ne hcc]
            exact hg'
        · exact hshr01.trans hshr12
        · intro m l' hg'
          exact hgone2 m l' hg'
        · intro m hchange
          by_cases hch : getV m st2.mmc
              = getV m (removeFromMonomialLists c monos st.mmc)
          · have hch0 : getV m (removeFromMonomialLists c monos st.mmc)
                ≠ getV m st.mmc := by
              intro he
              exact hchange (hch.trans he)
            have hmmem : m ∈ monos := by
              by_contra hnm
              exact hch0 (by rw [hget1 m, if_neg hnm])
            exact hmonos2 m hmmem
          · exact hchg12 m hch
    intro mon st hinv hcard
    cases hml : getV mon st.mmc with
    | none =>
      refine ⟨st, ?_, hinv, Shrunk.refl st, ?_, fun m hm => absurd rfl hm⟩
      · simp only [compute_zero_constraints_monomial, hml]
      · rintro ⟨c, hg, -⟩
        rw [hml] at hg
        cases hg
    | some listMon =>
      by_cases hlen : listMon.length = 1
      · obtain ⟨cId, rfl⟩ := List.length_eq_one.mp hlen
        by_cases hval : readValue storage p mon cId = 0
        · refine ⟨st, ?_, hinv, Shrunk.refl st, ?_, fun m hm => absurd rfl hm⟩
          · simp only [compute_zero_constraints_monomial, hml]
            rw [if_pos (show ([cId] : List Nat).length = 1 from rfl)]
            simp [hval]
          · rintro ⟨c, hg, hvne⟩
            rw [hml] at hg
            cases hg
            exact hvne hval
        · have hcmem : cId ∈ cidSet st :=
            (mem_cidSet_getV hinv.1).mpr ⟨mon, [cId], hml, by simp⟩
          obtain ⟨st', hrun', hinv', hshr', hgone', hchg'⟩ :=
            hR cId st hinv (by omega) hcmem
          refine ⟨st', ?_, hinv', hshr', ?_, hchg'⟩
          · simp only [compute_zero_constraints_monomial, hml]
            rw [if_pos (show ([cId] : List Nat).length = 1 from rfl)]
            simp only [ne_eq, hval, not_false_iff, if_pos]
            exact hrun'
          · rintro ⟨c, hg, hvne⟩
            have hs : (getV mon st'.mmc).isSome = true := by
              rw [hg]; rfl
            have hsub := hshr'.2 mon [cId] [c] hml hg
            have hc1 : c ∈ ([cId] : List Nat) := hsub (by simp)
            simp only [List.mem_singleton] at hc1
            subst hc1
            exact hgone' mon [c] hg (by simp)
      · refine ⟨st, ?_, hinv, Shrunk.refl st, ?_, fun m hm => absurd rfl hm⟩
        · simp only [compute_zero_constraints_monomial, hml]
          rw [if_neg hlen]
        · rintro ⟨c, hg, -⟩
          rw [hml] at hg
          cases hg
          exact hlen rfl

/-- The top loop of `compute_zero_constraints` has the same contract
as the cascade: every processed monomial ends non-singular, and so
does every monomial whose list changed along the way. -/
theorem compute_zero_constraints_spec (storage : List Constraint) (p : Int)
    (fuel : Nat) :
    ∀ (mons : List Monomial) (st : ZeroState), ZInv st →
      (cidSet st).card < fuel →
      ∃ st', compute_zero_constraints storage p fuel mons st = some st' ∧
        ZInv st' ∧ Shrunk st st' ∧
        (∀ m ∈ mons, ¬ badMon storage p st' m) ∧
        (∀ m, getV m st'.mmc ≠ getV m st.mmc → ¬ badMon storage p st' m) := by
  intro mons
  induction mons with
  | nil =>
    intro st hinv hcard
    exact ⟨st, rfl, hinv, Shrunk.refl st, by simp, fun m hm => absurd rfl hm⟩
  | cons mon ms ihms =>
    intro st hinv hcard
    obtain ⟨st1, hrun1, hinv1, hshr1, hbad1, hchg1⟩ :=
      compute_zero_constraints_monomial_spec storage p fuel mon st hinv hcard
    have hcard1 : (cidSet st1).card < fuel :=
      lt_of_le_of_lt (Finset.card_le_card (cidSet_mono hshr1 hinv.1 hinv1.1)) hcard
    obtain ⟨st', hrun2, hinv', hshr2, hms', hchg2⟩ := ihms st1 hinv1 hcard1
    refine ⟨st', ?_, hinv', hshr1.trans hshr2, ?_, ?_⟩
    · simp only [compute_zero_constraints, hrun1, hrun2]
    · intro m hm
      rcases List.mem_cons.mp hm with rfl | hmem
      · by_cases hch : getV m st'.mmc = getV m st1.mmc
        · exact fun hb => hbad1 ((badMon_congr storage p hch).mp hb)
        · exact hchg2 m hch
      · exact hms' m hmem
    · intro m hchange
      by_cases hch : getV m st'.mmc = getV m st1.mmc
      · have hch1 : getV m st1.mmc ≠ getV m st.mmc := by
          intro he
          exact hchange (hch.trans he)
        exact fun hb => hchg1 m hch1 ((badMon_congr storage p hch).mp hb)
      · exact hchg2 m hch

theorem nodup_fold_insert {γ : Type} (k : γ → Monomial) :
    ∀ (xs : List γ) (acc : List Monomial), acc.Nodup →
      (xs.foldl (fun acc x => if k x ∈ acc then acc else acc ++ [k x]) acc).Nodup := by
  intro xs
  induction xs with
  | nil => intro acc h; exact h
  | cons x t ih =>
    intro acc h
    rw [List.foldl_cons]
    by_cases hx : k x ∈ acc
    · rw [if_pos hx]
      exact ih acc h
    · rw [if_neg hx]
      refine ih _ ?_
      rw [List.nodup_append]
      exact ⟨h, List.nodup_singleton _, fun a ha hb => hx
        ((List.mem_singleton.mp hb) ▸ ha)⟩

theorem take_possible_cloned_monomials_nodup (con : Constraint) :
    con.take_possible_cloned_monomials.Nodup := by
  unfold Constraint.take_possible_cloned_monomials
  have key : ∀ (a : RExpr) (acc : List Monomial), acc.Nodup →
      (a.foldl (fun acc kva =>
        con.b.foldl (fun acc kvb =>
          let mon := sortPair kva.1 kvb.1
          if mon ∈ acc then acc else acc ++ [mon]) acc) acc).Nodup := by
    intro a
    induction a with
    | nil => intro acc h; exact h
    | cons kva ta ih =>
      intro acc h
      rw [List.foldl_cons]
      exact ih _ (nodup_fold_insert (fun kvb => sortPair kva.1 kvb.1) con.b acc h)
  exact key con.a [] List.nodup_nil

theorem registerMonomial_fold (cId : Nat) :
    ∀ (monos : List Monomial), monos.Nodup →
      ∀ (lst0 : List Monomial) (mmc0 : List (Monomial × List Nat)),
        NodupKeys mmc0 →
        (∀ mon, (getV mon mmc0).isSome = true → mon ∈ lst0) →
        NodupKeys (monos.foldl (fun a mon => registerMonomial cId mon a)
            (lst0, mmc0)).2 ∧
        (∀ mon, (getV mon (monos.foldl (fun a mon => registerMonomial cId mon a)
            (lst0, mmc0)).2).isSome = true →
          mon ∈ (monos.foldl (fun a mon => registerMonomial cId mon a)
            (lst0, mmc0)).1) ∧
        (∀ mon, getV mon (monos.foldl (fun a mon => registerMonomial cId mon a)
            (lst0, mmc0)).2 =
          if mon ∈ monos then some ((getV mon mmc0).getD [] ++ [cId])
          else getV mon mmc0) := by
  intro monos
  induction monos with
  | nil =>
    intro _ lst0 mmc0 hK hdom
    exact ⟨hK, hdom, fun mon => by simp⟩
  | cons mon rest ih =>
    intro hnd lst0 mmc0 hK hdom
    have h' := hnd
    rw [List.nodup_cons] at h'
    obtain ⟨h1, h2⟩ := h'
    rw [List.foldl_cons]
    have hstep : ∃ lst1 mmc1,
        registerMonomial cId mon (lst0, mmc0) = (lst1, mmc1) ∧
        NodupKeys mmc1 ∧ (∀ m, (getV m mmc1).isSome = true → m ∈ lst1) ∧
        getV mon mmc1 = some ((getV mon mmc0).getD [] ++ [cId]) ∧
        (∀ m, m ≠ mon → getV m mmc1 = getV m mmc0) := by
      unfold registerMonomial
      cases hg : getV mon mmc0 with
      | some l =>
        refine ⟨lst0, setV mon (l ++ [cId]) mmc0, rfl, hK.setV _ _, ?_, ?_, ?_⟩
        · intro m hm
          rw [getV_setV] at hm
          by_cases hmm : mon = m
          · exact hdom m (by rw [← hmm, hg]; rfl)
          · rw [if_neg hmm] at hm
            exact hdom m hm
        · rw [getV_setV, if_pos rfl]
          rfl
        · intro m hm
          rw [getV_setV, if_neg (fun hc => hm hc.symm)]
      | none =>
        refine ⟨lst0 ++ [mon], setV mon [cId] mmc0, rfl, hK.setV _ _, ?_, ?_, ?_⟩
        · intro m hm
          rw [getV_setV] at hm
          by_cases hmm : mon = m
          · exact List.mem_append_right _ (by simp [hmm])
          · rw [if_neg hmm] at hm
            exact List.mem_append_left _ (hdom m hm)
        · rw [getV_setV, if_pos rfl]
          rfl
        · intro m hm
          rw [getV_setV, if_neg (fun hc => hm hc.symm)]
    obtain ⟨lst1, mmc1, heq, hK1, hdom1, hgmon, hgother⟩ := hstep
    rw [heq]
    obtain ⟨ihK, ihdom, ihchar⟩ := ih h2 lst1 mmc1 hK1 hdom1
    refine ⟨ihK, ihdom, ?_⟩
    intro m
    rw [ihchar m]
    by_cases hmm : m = mon
    · subst hmm
      rw [if_neg h1, if_pos (List.mem_cons_self _ _), hgmon]
    · by_cases hmr : m ∈ rest
      · rw [if_pos hmr, if_pos (List.mem_cons_of_mem _ hmr), hgother m hmm]
      · rw [if_neg hmr, if_neg (by simp [hmm, hmr]), hgother m hmm]

theorem create_table_fold_inv :
    ∀ (l : List Constraint) (n : Nat) (acc : List Monomial × ZeroState),
      ZInv acc.2 →
      (∀ mon, (getV mon acc.2.mmc).isSome = true → mon ∈ acc.1) →
      (∀ cid monos, getV cid acc.2.mcm = some monos → cid < n) →
      (∀ mon lst c, getV mon acc.2.mmc = some lst → c ∈ lst → c < n) →
      ZInv ((List.enumFrom n l).foldl createTableStep acc).2 ∧
      (∀ mon, (getV mon ((List.enumFrom n l).foldl createTableStep acc).2.mmc).isSome
          = true →
        mon ∈ ((List.enumFrom n l).foldl createTableStep acc).1) ∧
      (∀ cid monos,
        getV cid ((List.enumFrom n l).foldl createTableStep acc).2.mcm = some monos →
        cid < n + l.length) ∧
      (∀ mon lst c,
        getV mon ((List.enumFrom n l).foldl createTableStep acc).2.mmc = some lst →
        c ∈ lst → c < n + l.length) := by
  intro l
  induction l with
  | nil =>
    intro n acc hinv hdom hbmcm hbmmc
    exact ⟨hinv, hdom, fun cid monos hg => by simpa using hbmcm cid monos hg,
      fun mon lst c hg hc => by simpa using hbmmc mon lst c hg hc⟩
  | cons con rest ih =>
    intro n acc hinv hdom hbmcm hbmmc
    rw [List.enumFrom_cons, List.foldl_cons]
    have hnext : ∃ acc', createTableStep acc (n, con) = acc' ∧ ZInv acc'.2 ∧
        (∀ mon, (getV mon acc'.2.mmc).isSome = true → mon ∈ acc'.1) ∧
        (∀ cid monos, getV cid acc'.2.mcm = some monos → cid < n + 1) ∧
        (∀ mon lst c, getV mon acc'.2.mmc = some lst → c ∈ lst → c < n + 1) := by
      unfold createTableStep
      by_cases hemp : con.is_empty
      · rw [if_pos hemp]
        exact ⟨acc, rfl, hinv, hdom,
          fun cid monos hg => Nat.lt_succ_of_lt (hbmcm cid monos hg),
          fun mon lst c hg hc => Nat.lt_succ_of_lt (hbmmc mon lst c hg hc)⟩
      · rw [if_neg hemp]
        obtain ⟨hKmmc, hKmcm, hLmmc, hLmcm, hcoh⟩ := hinv
        obtain ⟨rK, rdom, rchar⟩ :=
          registerMonomial_fold n con.take_possible_cloned_monomials
            (take_possible_cloned_monomials_nodup con) acc.1 acc.2.mmc hKmmc hdom
        refine ⟨_, rfl, ⟨rK, hKmcm.setV _ _, ?_, ?_, ?_⟩, rdom, ?_, ?_⟩
        · -- mmc value lists nodup
          intro mon lst hg
          rw [rchar mon] at hg
          split_ifs at hg with h
          · cases hg
            cases hgs : getV mon acc.2.mmc with
            | none => simp [hgs]
            | some l0 =>
              simp only [hgs, Option.getD_some]
              rw [List.nodup_append]
              refine ⟨hLmmc mon l0 hgs, List.nodup_singleton _, ?_⟩
              intro a ha hb
              rw [List.mem_singleton] at hb
              subst hb
              exact absurd (hbmmc mon l0 a hgs ha) (by omega)
          · exact hLmmc mon lst hg
        · -- mcm value lists nodup
          intro c monos hg
          rw [getV_setV] at hg
          by_cases hc : n = c
          · rw [if_pos hc] at hg
            cases hg
            exact take_possible_cloned_monomials_nodup con
          · rw [if_neg hc] at hg
            exact hLmcm c monos hg
        · -- coherence
          intro mon lst c hg hcl
          rw [rchar mon] at hg
          split_ifs at hg with h
          · cases hg
            rcases List.mem_append.mp hcl with hold | hnew
            · have hgs : ∃ l0, getV mon acc.2.mmc = some l0 ∧ c ∈ l0 := by
                cases hgs : getV mon acc.2.mmc with
                | none => rw [hgs] at hold; simp at hold
                | some l0 =>
                  rw [hgs] at hold
                  exact ⟨l0, rfl, hold⟩
              obtain ⟨l0, hg0, hc0⟩ := hgs
              obtain ⟨monos', hm', hmem'⟩ := hcoh mon l0 c hg0 hc0
              have hcn : c ≠ n := by
                have := hbmmc mon l0 c hg0 hc0
                omega
              refine ⟨monos', ?_, hmem'⟩
              rw [getV_setV, if_neg (fun hc2 => hcn hc2.symm)]
              exact hm'
            · rw [List.mem_singleton] at hnew
              subst hnew
              refine ⟨con.take_possible_cloned_monomials, ?_, h⟩
              rw [getV_setV, if_pos rfl]
          · obtain ⟨monos', hm', hmem'⟩ := hcoh mon lst c hg hcl
            have hcn : c ≠ n := by
              have := hbmmc mon lst c hg hcl
              omega
            refine ⟨monos', ?_, hmem'⟩
            rw [getV_setV, if_neg (fun hc2 => hcn hc2.symm)]
            exact hm'
        · -- mcm keys bound
          intro cid monos hg
          rw [getV_setV] at hg
          by_cases hc : n = cid
          · omega
          · rw [if_neg hc] at hg
            exact Nat.lt_succ_of_lt (hbmcm cid monos hg)
        · -- mmc list elements bound
          intro mon lst c hg hcl
          rw [rchar mon] at hg
          split_ifs at hg with h
          · cases hg
            rcases List.mem_append.mp hcl with hold | hnew
            · cases hgs : getV mon acc.2.mmc with
              | none => rw [hgs] at hold; simp at hold
              | some l0 =>
                rw [hgs] at hold
                exact Nat.lt_succ_of_lt (hbmmc mon l0 c hgs hold)
            · rw [List.mem_singleton] at hnew
              omega
          · exact Nat.lt_succ_of_lt (hbmmc mon lst c hg hcl)
    obtain ⟨acc', heq, hinv', hdom', hbmcm', hbmmc'⟩ := hnext
    rw [heq]
    have := ih (n + 1) acc' hinv' hdom' hbmcm' hbmmc'
    refine ⟨this.1, this.2.1, ?_, ?_⟩
    · intro cid monos hg
      have := this.2.2.1 cid monos hg
      simpa [Nat.add_comm, Nat.add_assoc, Nat.add_left_comm] using by omega
    · intro mon lst c hg hcl
      have := this.2.2.2 mon lst c hg hcl
      simpa using by omega

theorem create_table_monomials_inv (storage : List Constraint) :
    ZInv (create_table_monomials storage).2 ∧
    (∀ mon, (getV mon (create_table_monomials storage).2.mmc).isSome = true →
      mon ∈ (create_table_monomials storage).1) := by
  have hbase1 : ZInv (⟨[], []⟩ : ZeroState) := by
    refine ⟨by simp [NodupKeys], by simp [NodupKeys], ?_, ?_, ?_⟩
    · intro mon lst h
      simp [getV] at h
    · intro c monos h
      simp [getV] at h
    · intro mon lst c h
      simp [getV] at h
  have h := create_table_fold_inv storage 0 ([], ⟨[], []⟩) hbase1
    (fun mon hm => by simp [getV] at hm)
    (fun cid monos hg => by simp [getV] at hg)
    (fun mon lst c hg => by simp [getV] at hg)
  rw [show create_table_monomials storage
      = (List.enumFrom 0 storage).foldl createTableStep ([], ⟨[], []⟩) from rfl]
  exact ⟨h.1, h.2.1⟩

/-- Claim C8: zero-elimination reaches a fixed point.  Starting from
the indices `ProcessedConstraints::new` builds, running
`compute_zero_constraints` (with fuel exceeding the number of live
constraint ids, which is shown sufficient) terminates, and afterwards
no monomial in the monomial→constraints index maps to exactly one
surviving constraint in which that monomial's summed coefficient is
non-zero modulo the field. -/
theorem compute_zero_constraints_fixed_point (storage : List Constraint) (p : Int) :
    ∃ st', compute_zero_constraints storage p
        ((cidSet (create_table_monomials storage).2).card + 1)
        (create_table_monomials storage).1 (create_table_monomials storage).2
        = some st' ∧
      ∀ mon, (getV mon st'.mmc).isSome = true → ¬ badMon storage p st' mon := by
  obtain ⟨hinv0, hdom0⟩ := create_table_monomials_inv storage
  obtain ⟨st', hrun, hinv', hshr, hms, hchg⟩ :=
    compute_zero_constraints_spec storage p
      ((cidSet (create_table_monomials storage).2).card + 1)
      (create_table_monomials storage).1 (create_table_monomials storage).2
      hinv0 (Nat.lt_succ_self _)
  refine ⟨st', hrun, ?_⟩
  intro mon hsome
  have hsome0 : (getV mon (create_table_monomials storage).2.mmc).isSome = true := by
    rw [← hshr.1 mon]
    exact hsome
  exact hms mon (hdom0 mon hsome0)

end WitnessOptimizer
